import Mathlib

/-!
Verification of the blog publishing pipeline in `publish-blog-post.py`.

The development shallowly embeds the script's data model and operations:
text is `List Char`, Python dicts holding YAML front matter are association
lists `FMap`, files are byte lists tagged with how they were produced, and
directories are association lists from names to files.  Regex-based parsing
(`FRONTMATTER_PATTERN`, `H1_PATTERN`, `IMAGE_PATTERN`) is embedded as
executable backtracking matchers faithful to Python `re` semantics on the
relevant patterns, and the fragment of PyYAML used by the script (block-style
dump of string/list-of-string/bool mappings with plain scalars, and the
corresponding load) is embedded directly.
-/

set_option maxRecDepth 20000

namespace Publish

/-- Convert a string literal to the character-list representation used
throughout the development. -/
def s2l (s : String) : List Char := s.toList

/-- Python `\s` / `str.isspace` on the ASCII whitespace class used by the
script (space, tab, newline, carriage return, vertical tab, form feed). -/
def pySpace (c : Char) : Bool :=
  c = ' ' || c = '\t' || c = '\n' || c = '\r' || c = Char.ofNat 11 || c = Char.ofNat 12

/-- ASCII lowercase conversion, modelling `str.lower` on the ASCII range. -/
def pyLower (c : Char) : Char :=
  if 'A' ≤ c && c ≤ 'Z' then Char.ofNat (c.toNat + 32) else c

/-- ASCII letter test. -/
def asciiAlpha (c : Char) : Bool :=
  ('a' ≤ c && c ≤ 'z') || ('A' ≤ c && c ≤ 'Z')

/-- ASCII digit test. -/
def asciiDigit (c : Char) : Bool :=
  '0' ≤ c && c ≤ '9'

/-- Python `str.strip()`: remove leading and trailing whitespace. -/
def pyStrip (l : List Char) : List Char :=
  ((l.dropWhile pySpace).reverse.dropWhile pySpace).reverse

/-- A YAML scalar or list value as stored in the script's front-matter
dicts: a string, a list of strings, or a boolean. -/
inductive YVal where
  | ys : List Char → YVal
  | yl : List (List Char) → YVal
  | yb : Bool → YVal
deriving DecidableEq

/-- A Python dict holding front matter: an association list from key to
value (keys unique in every state the script produces). -/
abbrev FMap := List (List Char × YVal)

/-- First-match association-list lookup, modelling Python dict lookup. -/
def dlookup (fm : FMap) (k : List Char) : Option YVal :=
  match fm with
  | [] => none
  | (k', v) :: rest => if k' = k then some v else dlookup rest k

/-- Expected Python type of a required front-matter field
(`str` or `list` in `FrontmatterValidator.REQUIRED_FIELDS`). -/
inductive FType where
  | tstr : FType
  | tlist : FType
deriving DecidableEq

/-- Python `isinstance(value, expected_type)` for the two expected types. -/
def shapeOk : FType → YVal → Bool
  | .tstr, .ys _ => true
  | .tlist, .yl _ => true
  | _, _ => false

/-- `FrontmatterValidator.REQUIRED_FIELDS`, in its dict iteration order. -/
def REQUIRED_FIELDS : List (List Char × FType) :=
  [(s2l "title", .tstr), (s2l "categories", .tlist), (s2l "tags", .tlist)]

/-- Missing/mistyped-field report built by the loop in
`FrontmatterValidator.validate`, iterating over the required fields. -/
def missingLoop (fm : FMap) : List (List Char × FType) → List (List Char)
  | [] => []
  | (f, t) :: rest =>
    match dlookup fm f with
    | none => f :: missingLoop fm rest
    | some v =>
      if shapeOk t v then missingLoop fm rest
      else (f ++ s2l " (wrong type)") :: missingLoop fm rest

/-- The full missing-field report for a front-matter dict. -/
def missingOf (fm : FMap) : List (List Char) :=
  missingLoop fm REQUIRED_FIELDS

/-- `FrontmatterValidator.validate`: `none` models an absent front matter
(Python `None`), and an empty dict is also rejected by `if not frontmatter`. -/
def validate (fm : Option FMap) : Bool × List (List Char) :=
  match fm with
  | none => (false, [s2l "all fields (no frontmatter)"])
  | some f =>
    if f = [] then (false, [s2l "all fields (no frontmatter)"])
    else
      let missing := missingOf f
      (missing = [], missing)

/-- `FrontmatterValidator.ensure_complete`.  The script stores
`datetime.now(timezone.utc).strftime(DATE_FORMAT_ISO)` when `date` is
absent; the current time string is passed in as the parameter `now`.
Missing keys are appended, which matches Python dict insertion order. -/
def ensure_complete (now : List Char) (fm : FMap) : FMap :=
  let fm1 := if (dlookup fm (s2l "date")).isSome then fm
             else fm ++ [(s2l "date", YVal.ys now)]
  let fm2 := if (dlookup fm1 (s2l "type")).isSome then fm1
             else fm1 ++ [(s2l "type", YVal.ys (s2l "blog"))]
  if (dlookup fm2 (s2l "draft")).isSome then fm2
  else fm2 ++ [(s2l "draft", YVal.yb false)]

/-- Word character of the regex `\w` (ASCII fragment): letter, digit or
underscore. -/
def wordChar (c : Char) : Bool :=
  asciiAlpha c || asciiDigit c || c = '_'

/-- Collapse each maximal run of whitespace/hyphen characters into a single
underscore, modelling `re.sub(r'[-\s]+', '_', s)`.  The boolean flag
records whether the previous character belonged to the current run. -/
def collapseDS : Bool → List Char → List Char
  | _, [] => []
  | inRun, c :: t =>
    if pySpace c || c = '-' then
      if inRun then collapseDS true t else '_' :: collapseDS true t
    else c :: collapseDS false t

/-- Python `str.strip('_')`. -/
def stripU (l : List Char) : List Char :=
  ((l.dropWhile (· = '_')).reverse.dropWhile (· = '_')).reverse

/-- `BlogPublisher.generate_slug`: date prefix is the first ten characters
of the date string with hyphens removed; the title is lower-cased, characters
outside `[\w\s-]` are removed, runs of whitespace/hyphens become single
underscores, and leading/trailing underscores are stripped. -/
def generate_slug (title date_str : List Char) : List Char :=
  let datePre := (date_str.take 10).filter (fun c => c ≠ '-')
  let t1 := (title.map pyLower).filter (fun c => wordChar c || pySpace c || c = '-')
  let t2 := stripU (collapseDS false t1)
  datePre ++ '_' :: t2

/-- The YAML 1.1 spellings that PyYAML's resolver reads as `True`. -/
def trueWords : List (List Char) :=
  [s2l "yes", s2l "Yes", s2l "YES", s2l "true", s2l "True", s2l "TRUE",
   s2l "on", s2l "On", s2l "ON"]

/-- The YAML 1.1 spellings that PyYAML's resolver reads as `False`. -/
def falseWords : List (List Char) :=
  [s2l "no", s2l "No", s2l "NO", s2l "false", s2l "False", s2l "FALSE",
   s2l "off", s2l "Off", s2l "OFF"]

/-- Resolve a plain YAML scalar: boolean words become booleans, everything
else in the fragment the script produces stays a string. -/
def parseScalar (v : List Char) : YVal :=
  if v ∈ trueWords then .yb true
  else if v ∈ falseWords then .yb false
  else .ys v

/-- Characters allowed in a plain (unquoted) scalar of the modelled YAML
fragment: letters, digits, spaces and underscores. -/
def plainChar (c : Char) : Bool :=
  asciiAlpha c || asciiDigit c || c = ' ' || c = '_'

/-- Scalars whose lower-casing collides with a YAML keyword, which PyYAML
would not emit as a plain scalar. -/
def reservedScalar (v : List Char) : Bool :=
  (v.map pyLower) ∈
    [s2l "yes", s2l "no", s2l "true", s2l "false", s2l "on", s2l "off",
     s2l "null", s2l "none", s2l "y", s2l "n"]

/-- A string that PyYAML dumps as a bare plain scalar and loads back
unchanged: nonempty, starting with a letter, made of plain characters, not
ending in a space, and not a reserved word. -/
def plainSafe (v : List Char) : Bool :=
  match v with
  | [] => false
  | c :: _ =>
    asciiAlpha c && v.all plainChar && (v.getLast? ≠ some ' ') &&
      !reservedScalar v

/-- A well-formed mapping key: letters and underscores, starting with a
letter (all keys the script uses have this form). -/
def plainKey (k : List Char) : Bool :=
  match k with
  | [] => false
  | c :: _ => asciiAlpha c && k.all (fun d => asciiAlpha d || d = '_')

/-- Lexicographic comparison of keys, matching Python string `<`. -/
def keyLt : List Char → List Char → Bool
  | [], [] => false
  | [], _ :: _ => true
  | _ :: _, [] => false
  | a :: as, b :: bs => if a < b then true else if b < a then false else keyLt as bs

/-- Keys in strictly increasing order.  `yaml.dump` sorts keys, so on
sorted inputs the unsorted embedding below emits exactly PyYAML's output. -/
def sortedKeys : FMap → Bool
  | [] => true
  | [_] => true
  | (k1, _) :: (k2, v2) :: rest => keyLt k1 k2 && sortedKeys ((k2, v2) :: rest)

/-- Well-formed front-matter value for the modelled YAML fragment. -/
def wfVal : YVal → Bool
  | .ys v => plainSafe v
  | .yl vs => !vs.isEmpty && vs.all plainSafe
  | .yb _ => true

/-- Every entry has a plain key and a well-formed value. -/
def wfEntries (fm : FMap) : Bool :=
  fm.all (fun p => plainKey p.1 && wfVal p.2)

/-- Well-formed front matter: nonempty, sorted unique keys, plain keys and
values.  On this domain the embedded dump emits byte-for-byte what
`yaml.dump(fm, default_flow_style=False, allow_unicode=True, indent=2)`
emits. -/
def wfFM (fm : FMap) : Bool :=
  !fm.isEmpty && sortedKeys fm && wfEntries fm

/-- The block-style lines PyYAML emits for a single key/value pair:
scalars on one `key: value` line, lists as a `key:` line followed by
unindented `- item` lines, booleans as `true`/`false`. -/
def dumpVal (k : List Char) : YVal → List (List Char)
  | .ys v => [k ++ ':' :: ' ' :: v]
  | .yb b => [k ++ ':' :: ' ' :: (if b then s2l "true" else s2l "false")]
  | .yl vs => (k ++ [':']) :: vs.map (fun v => '-' :: ' ' :: v)

/-- All lines of the YAML dump of a mapping, in entry order. -/
def dumpLines : FMap → List (List Char)
  | [] => []
  | (k, v) :: fm => dumpVal k v ++ dumpLines fm

/-- Join lines, terminating every line (including the last) with a
newline, as PyYAML's dump does. -/
def joinNl : List (List Char) → List Char
  | [] => []
  | l :: ls => l ++ '\n' :: joinNl ls

/-- Join lines with newline separators and no trailing newline. -/
def icl : List (List Char) → List Char
  | [] => []
  | [l] => l
  | l :: l2 :: ls => l ++ '\n' :: icl (l2 :: ls)

/-- `FrontmatterParser.serialize`: `yaml.dump` of the mapping. -/
def serialize (fm : FMap) : List Char := joinNl (dumpLines fm)

/-- `FrontmatterParser.create_markdown`:
`f"---\n{yaml_str}---\n{body}"`. -/
def create_markdown (fm : FMap) (body : List Char) : List Char :=
  s2l "---" ++ '\n' :: (serialize fm ++ (s2l "---" ++ '\n' :: body))

/-- Python `str.split('\n')` on the character list. -/
def splitNl : List Char → List (List Char)
  | [] => [[]]
  | c :: t =>
    if c = '\n' then [] :: splitNl t
    else
      match splitNl t with
      | [] => [[c]]
      | l :: ls => (c :: l) :: ls

/-- Character different from a colon (key boundary of a mapping line). -/
def notColon (c : Char) : Bool := c ≠ ':'

/-- Character different from a newline. -/
def notNl (c : Char) : Bool := c ≠ '\n'

/-- Newline character test. -/
def isNl (c : Char) : Bool := c = '\n'

/-- Split a loaded line at its key: `key: value` yields the value,
`key:` alone signals a following block list. -/
def lineKey (l : List Char) : Option (List Char × Option (List Char)) :=
  let k := l.takeWhile notColon
  match l.dropWhile notColon with
  | ':' :: rest =>
    match rest with
    | [] => some (k, none)
    | ' ' :: v => some (k, some v)
    | _ => none
  | _ => none

/-- Recognize an unindented block-sequence item line `- item`. -/
def isItem (l : List Char) : Bool :=
  match l with
  | c1 :: c2 :: _ => c1 = '-' && c2 = ' '
  | _ => false

/-- The scalar of a block-sequence item line. -/
def itemVal (l : List Char) : List Char := l.drop 2

/-- Load the block-style mapping lines produced by the dump above,
modelling `yaml.safe_load` on that fragment (`none` = YAML error).  The
first argument is recursion fuel; `loadLines` supplies enough for the
whole input, so the fuel never runs out. -/
def loadLinesF : Nat → List (List Char) → Option FMap
  | _, [] => some []
  | 0, _ :: _ => none
  | fuel + 1, l :: rest =>
    if isItem l then none
    else
      match lineKey l with
      | none => none
      | some (k, some v) =>
        if k = [] then none
        else (loadLinesF fuel rest).map (fun fm => (k, parseScalar v) :: fm)
      | some (k, none) =>
        let items := rest.takeWhile isItem
        if k = [] ∨ items = [] then none
        else
          (loadLinesF fuel (rest.drop items.length)).map
            (fun fm => (k, YVal.yl (items.map itemVal)) :: fm)

/-- Load a full line list. -/
def loadLines (ls : List (List Char)) : Option FMap :=
  loadLinesF ls.length ls

/-- `yaml.safe_load` applied to the first regex group: whitespace-only
text loads as `None`, otherwise the mapping loader runs (`none` models a
raised `YAMLError`). -/
def loadYaml (a : List Char) : Option (Option FMap) :=
  if a.all pySpace then some none
  else
    match loadLines (splitNl a) with
    | some fm => some (some fm)
    | none => none

/-- Match `\s*\n` with a greedy `\s*` whose continuation always succeeds:
consume the whitespace run up to and including its last newline, returning
the remainder; fail if the run contains no newline. -/
def wsSplit : List Char → Option (List Char)
  | [] => none
  | c :: t =>
    if pySpace c then
      match wsSplit t with
      | some r => some r
      | none => if c = '\n' then some t else none
    else none

/-- Match `(.*?)\n---\s*\n(.*)$` (DOTALL) against the text after the
opening delimiter: the lazy group grows until the first `\n---` whose
following `\s*\n` succeeds; the final group takes everything remaining. -/
def matchMid : List Char → Option (List Char × List Char)
  | [] => none
  | c :: t =>
    if c = '\n' ∧ ['-', '-', '-'].isPrefixOf t then
      match wsSplit (t.drop 3) with
      | some b => some ([], b)
      | none =>
        match matchMid t with
        | some (a, b) => some (c :: a, b)
        | none => none
    else
      match matchMid t with
      | some (a, b) => some (c :: a, b)
      | none => none

/-- Match `\s*\n` after the opening `---` with full backtracking into the
rest of the pattern: longer whitespace prefixes are preferred, and on
failure the match retries at each earlier newline. -/
def fmStart : List Char → Option (List Char × List Char)
  | [] => none
  | c :: t =>
    if pySpace c then
      match fmStart t with
      | some r => some r
      | none => if c = '\n' then matchMid t else none
    else none

/-- `re.match(FRONTMATTER_PATTERN, content, re.DOTALL)` where
`FRONTMATTER_PATTERN = r'^---\s*\n(.*?)\n---\s*\n(.*)$'`, returning the
two capture groups. -/
def matchFMP : List Char → Option (List Char × List Char)
  | '-' :: '-' :: '-' :: t => fmStart t
  | _ => none

/-- Length of the leading whitespace run. -/
def wsRunLen (l : List Char) : Nat := (l.takeWhile pySpace).length

/-- Backtracking for the greedy `\s+` after `#` in the H1 patterns: try
consuming `j` whitespace characters for `j` from the given bound down to 1
and return the remainder at the first `j` whose next character exists and
is not a newline (so `.+?` / `[^\n]+` can start there). -/
def h1Go (r2 : List Char) : Nat → Option (List Char)
  | 0 => none
  | j + 1 =>
    match r2.drop (j + 1) with
    | c :: t => if c ≠ '\n' then some (c :: t) else h1Go r2 j
    | [] => h1Go r2 j

/-- `FrontmatterParser.extract_h1_title`:
`re.match(r'^\s*#\s+(.+?)(?:\n|$)', text, re.MULTILINE)`, returning the
stripped first capture group. -/
def extract_h1_title (t : List Char) : Option (List Char) :=
  match t.dropWhile pySpace with
  | '#' :: r2 =>
    match h1Go r2 (wsRunLen r2) with
    | some rest => some (pyStrip (rest.takeWhile notNl))
    | none => none
  | _ => none

/-- `FrontmatterParser.remove_h1`:
`re.sub(r'^\s*#\s+[^\n]+\n*', '', text, count=1)` (anchored, so it can
only remove a leading heading). -/
def remove_h1 (t : List Char) : List Char :=
  match t.dropWhile pySpace with
  | '#' :: r2 =>
    match h1Go r2 (wsRunLen r2) with
    | some rest => (rest.dropWhile notNl).dropWhile isNl
    | none => t
  | _ => t

/-- `FrontmatterParser.parse`: returns
`(front_matter, body, extracted_title)`; the outer `none` models the
`ValueError` raised on invalid YAML. -/
def parse (content : List Char) :
    Option (Option FMap × List Char × Option (List Char)) :=
  match matchFMP content with
  | none => some (none, remove_h1 content, extract_h1_title content)
  | some (a, b) =>
    match loadYaml a with
    | none => none
    | some ofm => some (ofm, remove_h1 b, extract_h1_title b)

/-- A body on which the H1 patterns cannot fire at all: empty, or starting
with a character that is neither whitespace nor `#`. -/
def bodySafe (body : List Char) : Bool :=
  match body with
  | [] => true
  | c :: _ => !pySpace c && c ≠ '#'

/-- A body that is empty or starts with a non-whitespace character, so the
closing `\s*\n` of the front-matter regex eats only its own newline. -/
def bodyHeadOk (body : List Char) : Bool :=
  match body with
  | [] => true
  | c :: _ => !pySpace c

/-- Nonempty with a non-whitespace head. -/
def headNotSpace (l : List Char) : Bool :=
  match l with
  | [] => false
  | c :: _ => !pySpace c

/-- A heading text that the H1 patterns capture verbatim: nonempty,
newline-free, not starting or ending with whitespace. -/
def h1TitleOk (t : List Char) : Bool :=
  headNotSpace t && t.all notNl && headNotSpace t.reverse

/-- Empty or not starting with a newline (so `\n*` of `H1_PATTERN` eats
nothing of it). -/
def noLeadNl (l : List Char) : Bool :=
  match l with
  | [] => true
  | c :: _ => c ≠ '\n'

/-- Concrete front matter used in several witnesses and counterexamples:
`{categories: [a], tags: [b], title: x}` (keys in sorted order, as
`yaml.dump` emits them). -/
def fm0ex : FMap :=
  [(s2l "categories", YVal.yl [s2l "a"]), (s2l "tags", YVal.yl [s2l "b"]),
   (s2l "title", YVal.ys (s2l "x"))]

/-- Dimensions that `PIL.Image.open` reports for a decodable image. -/
structure PILImage where
  width : Nat
  height : Nat
deriving DecidableEq

/-- Content of a file produced by the pipeline: exact known bytes
(`shutil.copy2`), a deterministic re-encode of a source image's bytes at a
given width and height (`img.resize(...)` followed by `img.save(...)`), or
text written with `write_text(..., encoding='utf-8')`, kept as the
character sequence (UTF-8 encoding and decoding round-trip exactly). -/
inductive FData where
  | bytes : List Nat → FData
  | enc : Nat → Nat → List Nat → FData
  | text : List Char → FData
deriving DecidableEq

/-- `BlogPublisher.optimize_image` on a source file with bytes `src`.
`dec` models `PIL.Image.open`: `none` means opening raises, in which case
the `except` branch falls back to `shutil.copy2`.  When the width exceeds
`max_image_width` the script computes `ratio = max/width` as a float and
`new_height = int(height * ratio)`; for widths and heights in realistic
ranges away from representation boundaries this truncation equals the exact
integer floor `height * maxW / width`, which is how it is embedded here.
Otherwise the file is copied byte-for-byte. -/
def optimize_image (dec : List Nat → Option PILImage) (maxW : Nat)
    (src : List Nat) : FData :=
  match dec src with
  | none => .bytes src
  | some img =>
    if maxW < img.width then .enc maxW (img.height * maxW / img.width) src
    else .bytes src

/-- Nearest-integer rounding of the ratio `a / b` (half rounds up; the
counterexample below is far from a tie, where every rounding convention
agrees), used to state the specification's claimed resize formula. -/
def roundDiv (a b : Nat) : Nat := (2 * a + b) / (2 * b)

/-- A concrete decoder environment: the byte list `[7]` decodes to a
3000x1001 image, everything else fails to decode. -/
def dec3000 : List Nat → Option PILImage :=
  fun b => if b = [7] then some ⟨3000, 1001⟩ else none

/-- A directory: an association list from file name to file content. -/
abbrev Dir := List (List Char × FData)

/-- Generic association-list lookup (used for directories). -/
def alookup {β : Type} (d : List (List Char × β)) (k : List Char) :
    Option β :=
  match d with
  | [] => none
  | (k', v) :: rest => if k' = k then some v else alookup rest k

/-- Write a file: overwrite in place if the name exists, else create it. -/
def aput {β : Type} (d : List (List Char × β)) (k : List Char) (v : β) :
    List (List Char × β) :=
  match d with
  | [] => [(k, v)]
  | (k', v') :: rest =>
    if k' = k then (k', v) :: rest else (k', v') :: aput rest k v

/-- Delete a file by name. -/
def aremove {β : Type} (d : List (List Char × β)) (k : List Char) :
    List (List Char × β) :=
  match d with
  | [] => []
  | (k', v') :: rest => if k' = k then rest else (k', v') :: aremove rest k

/-- Character different from a slash (path component boundary). -/
def notSlash (c : Char) : Bool := c ≠ '/'

/-- Character different from a dot. -/
def notDot (c : Char) : Bool := c ≠ '.'

/-- `pathlib.Path(p).name`: the final path component. -/
def baseName (p : List Char) : List Char :=
  (p.reverse.takeWhile notSlash).reverse

/-- `pathlib.Path(p).suffix`: the extension of the final component,
including its dot; empty when the last dot is leading or trailing. -/
def pySuffix (p : List Char) : List Char :=
  let name := baseName p
  let e := name.reverse.takeWhile notDot
  if e ≠ [] ∧ e.length + 2 ≤ name.length then '.' :: e.reverse else []

/-- `f"{counter:02d}"`: decimal digits zero-padded to two places. -/
def two2 (n : Nat) : List Char :=
  if n < 10 then '0' :: Nat.toDigits 10 n else Nat.toDigits 10 n

/-- `f"{post_slug}-{counter:02d}{ext}"`, the name given to the n-th
processed image. -/
def cleanName (slug : List Char) (ctr : Nat) (ext : List Char) : List Char :=
  slug ++ '-' :: (two2 ctr ++ ext)

/-- `f"![{alt}]({path})"`, the markup text rebuilt for textual
substitution. -/
def mkRef (alt path : List Char) : List Char :=
  '!' :: '[' :: (alt ++ ']' :: '(' :: (path ++ [')']))

/-- `img_path.startswith(('http://', 'https://', '//', '/images/blog/'))`. -/
def skipRef (p : List Char) : Bool :=
  (s2l "http://").isPrefixOf p || (s2l "https://").isPrefixOf p ||
    (s2l "//").isPrefixOf p || (s2l "/images/blog/").isPrefixOf p

/-- Character admissible in the regex path group `[^)\s]+`. -/
def pathChar (c : Char) : Bool := !(c = ')' || pySpace c)

/-- Character different from a closing bracket (alt-text boundary). -/
def notRBracket (c : Char) : Bool := c ≠ ']'

/-- Character different from a double quote. -/
def notQuote (c : Char) : Bool := c ≠ '"'

/-- Match the tail of `IMAGE_PATTERN` after the literal `![`:
`([^\]]*)\]\(([^)\s]+)(?:\s+"[^"]*")?\)`.  Returns alt text, path, and the
remainder after the match. -/
def refAtBody (r : List Char) :
    Option (List Char × List Char × List Char) :=
  let alt := r.takeWhile notRBracket
  match r.dropWhile notRBracket with
  | d1 :: d2 :: r2 =>
    if d1 = ']' ∧ d2 = '(' then
      let pr := r2.takeWhile pathChar
      if pr = [] then none
      else
        match r2.dropWhile pathChar with
        | e1 :: t2 =>
          if e1 = ')' then some (alt, pr, t2)
          else if pySpace e1 then
            match (e1 :: t2).dropWhile pySpace with
            | f1 :: q =>
              if f1 = '"' then
                match q.dropWhile notQuote with
                | g1 :: g2 :: rem =>
                  if g1 = '"' ∧ g2 = ')' then some (alt, pr, rem) else none
                | _ => none
              else none
            | _ => none
          else none
        | [] => none
    else none
  | _ => none

/-- Try `IMAGE_PATTERN` at the current position. -/
def refAt (s : List Char) : Option (List Char × List Char × List Char) :=
  match s with
  | c1 :: c2 :: r => if c1 = '!' ∧ c2 = '[' then refAtBody r else none
  | _ => none

/-- `re.findall(IMAGE_PATTERN, body)`: scan left to right, taking
non-overlapping matches.  The first argument is recursion fuel. -/
def findRefsF : Nat → List Char → List (List Char × List Char)
  | 0, _ => []
  | _ + 1, [] => []
  | fuel + 1, c :: t =>
    match refAt (c :: t) with
    | some (a, p, rem) => (a, p) :: findRefsF fuel rem
    | none => findRefsF fuel t

/-- All image references of a body, in document order. -/
def findRefs (s : List Char) : List (List Char × List Char) :=
  findRefsF s.length s

/-- Python `str.replace(old, new)`: replace all non-overlapping
occurrences left to right (for nonempty `old`).  The first argument is
recursion fuel. -/
def replaceAllF : Nat → List Char → List Char → List Char → List Char
  | 0, s, _, _ => s
  | fuel + 1, s, old, new =>
    match s with
    | [] => []
    | c :: t =>
      if old ≠ [] ∧ old.isPrefixOf (c :: t) then
        new ++ replaceAllF fuel ((c :: t).drop old.length) old new
      else c :: replaceAllF fuel t old new

/-- `s.replace(old, new)` for the nonempty patterns the script builds. -/
def replaceAll (s old new : List Char) : List Char :=
  replaceAllF s.length s old new

/-- A record of one processed image:
`{'old_path': ..., 'new_name': ..., 'alt_text': ...}`. -/
structure Rename where
  old_path : List Char
  new_name : List Char
  alt_text : List Char
deriving DecidableEq

/-- `BlogPublisher.find_image`: resolve relative to the draft directory,
and when the draft is already archived fall back to the parent
directory; `none` models a missing file (non-fatal warning). -/
def find_image (draftDir parentDir : Dir) (p : List Char) (isPub : Bool) :
    Option FData :=
  match alookup draftDir (pyStrip p) with
  | some f => some f
  | none => if isPub then alookup parentDir (pyStrip p) else none

/-- `optimize_image` applied to a directory entry.  Files recorded as
re-encodes are opaque: the model copies them unchanged (no state reached
by the claims stores a re-encode in a source directory). -/
def optimize_file (dec : List Nat → Option PILImage) (maxW : Nat) :
    FData → FData
  | .bytes b => optimize_image dec maxW b
  | .enc w h src => .enc w h src
  | .text s => .text s

/-- The loop of `BlogPublisher.process_images` over the found references:
skip web/published paths, resolve the rest, optimize into the bundle
directory under the counter-numbered name, and rewrite the body by whole
string textual substitution. -/
def processLoop (dec : List Nat → Option PILImage) (maxW : Nat)
    (draftDir parentDir : Dir) (isPub : Bool) (slug : List Char) :
    List (List Char × List Char) → Nat → List Char → Dir → List Rename →
      List Char × Dir × List Rename
  | [], _, body, bundle, renames => (body, bundle, renames)
  | (alt, p) :: rest, ctr, body, bundle, renames =>
    if skipRef p then
      processLoop dec maxW draftDir parentDir isPub slug rest ctr body
        bundle renames
    else
      match find_image draftDir parentDir p isPub with
      | none =>
        processLoop dec maxW draftDir parentDir isPub slug rest ctr body
          bundle renames
      | some f =>
        let ext := pySuffix (pyStrip p)
        let nn := cleanName slug ctr ext
        let bundle' := aput bundle nn (optimize_file dec maxW f)
        let body' := replaceAll body (mkRef alt p) (mkRef alt nn)
        processLoop dec maxW draftDir parentDir isPub slug rest (ctr + 1)
          body' bundle' (renames ++ [⟨p, nn, alt⟩])

/-- `BlogPublisher.process_images`: find references, then run the loop
with the counter starting at 1; returns the updated body, the bundle
directory after the image writes, and the rename records. -/
def process_images (dec : List Nat → Option PILImage) (maxW : Nat)
    (draftDir parentDir : Dir) (isPub : Bool) (slug : List Char)
    (body : List Char) (bundle : Dir) : List Char × Dir × List Rename :=
  processLoop dec maxW draftDir parentDir isPub slug (findRefs body) 1 body
    bundle []

/-- `BlogPublisher.update_image_refs`: apply every recorded rename to a
text by whole-string substitution. -/
def update_image_refs (content : List Char) (renames : List Rename) :
    List Char :=
  renames.foldl
    (fun c r =>
      replaceAll c (mkRef r.alt_text r.old_path) (mkRef r.alt_text r.new_name))
    content

/-- The plan of the processing loop: the rename records it will emit for
the remaining references starting at a given counter, paired with the
resolved source file each record optimizes. -/
def planRefs (dec : List Nat → Option PILImage) (maxW : Nat)
    (draftDir parentDir : Dir) (isPub : Bool) (slug : List Char) :
    List (List Char × List Char) → Nat → List (Rename × FData)
  | [], _ => []
  | (alt, p) :: rest, ctr =>
    if skipRef p then
      planRefs dec maxW draftDir parentDir isPub slug rest ctr
    else
      match find_image draftDir parentDir p isPub with
      | none => planRefs dec maxW draftDir parentDir isPub slug rest ctr
      | some f =>
        (⟨p, cleanName slug ctr (pySuffix (pyStrip p)), alt⟩, f) ::
          planRefs dec maxW draftDir parentDir isPub slug rest (ctr + 1)

/-- The bundle-directory writes performed for a processing plan. -/
def planBundle (dec : List Nat → Option PILImage) (maxW : Nat)
    (bundle : Dir) (plan : List (Rename × FData)) : Dir :=
  plan.foldl
    (fun d pr => aput d pr.1.new_name (optimize_file dec maxW pr.2)) bundle

/-- Substring occurrence test (Python `pat in s`), fuel-based. -/
def occursInF : Nat → List Char → List Char → Bool
  | 0, _, _ => false
  | fuel + 1, s, pat =>
    pat.isPrefixOf s ||
      (match s with
       | [] => false
       | _ :: t => occursInF fuel t pat)

/-- Substring occurrence test with sufficient fuel. -/
def occursIn (s pat : List Char) : Bool := occursInF (s.length + 1) s pat

/-- Decoder for the overlap counterexample: bytes `[1,2,3]` decode to a
small 10x5 image. -/
def decQ : List Nat → Option PILImage :=
  fun b => if b = [1, 2, 3] then some ⟨10, 5⟩ else none

/-- Draft directory containing the local image `q.png`. -/
def dirQ : Dir := [(s2l "q.png", FData.bytes [1, 2, 3])]

/-- A body whose second reference has a web path that textually contains
the first reference's markup. -/
def bodyQ : List Char := s2l "![c](q.png) ![A](http://e![c](q.png)"

/-- The markup occurrence of the skipped (web-path) reference in
`bodyQ`. -/
def markupQ : List Char := s2l "![A](http://e![c](q.png)"

/-- A text segment free of `!`, so reference matching and substitution
pass over it untouched. -/
def segOk (B : List Char) : Bool := B.all (fun c => c ≠ '!')

/-- Alt text admissible in a reference: no `]` (the regex boundary) and no
`!` (so matches start only at markup starts). -/
def altOk (a : List Char) : Bool := a.all (fun c => notRBracket c && c ≠ '!')

/-- A path admissible in a reference: nonempty, made of regex path
characters, and free of `!`. -/
def pathOk (p : List Char) : Bool :=
  !p.isEmpty && p.all (fun c => pathChar c && c ≠ '!')

/-- A slug usable in generated image names: regex path characters, no `!`
(ISO date plus slugified title always satisfy this). -/
def slugOk (s : List Char) : Bool := s.all (fun c => pathChar c && c ≠ '!')

/-- Insert an entry into a key-sorted mapping, keeping the order. -/
def insFM (e : List Char × YVal) : FMap → FMap
  | [] => [e]
  | f :: rest => if keyLt e.1 f.1 then e :: f :: rest else f :: insFM e rest

/-- Sort a mapping by key, modelling the `sort_keys=True` default of
`yaml.dump`: the dump embedding (`dumpLines`) emits entries in list order
and is byte-faithful on sorted inputs, so the pipeline sorts the completed
mapping before dumping it. -/
def sortFM : FMap → FMap
  | [] => []
  | e :: rest => insFM e (sortFM rest)

/-- Everything before the body in a composed document:
`---\n` + YAML dump + `---\n`. -/
def cmPre (fm : FMap) : List Char :=
  s2l "---" ++ '\n' :: (serialize fm ++ (s2l "---" ++ ['\n']))

/-- One image-rename step of the re-publish branch (lines 644-648):
`old_img = draft_path.parent / Path(img['old_path']).name`,
`new_img = published_bundle / img['new_name']` (the same directory, since
`published_bundle = draft_path.parent`), moved only when the old file
exists and the two paths differ. -/
def renameStep (bundleDir : Dir) (r : Rename) : Dir :=
  let oldn := baseName r.old_path
  match alookup bundleDir oldn with
  | none => bundleDir
  | some f =>
    if oldn = r.new_name then bundleDir
    else aput (aremove bundleDir oldn) r.new_name f

/-- `handle_source_file`, re-publish branch (lines 638-651):
`published_index = draft_path` is overwritten in place with the original
content whose image references were substituted, then each rename record
moves its image inside `draft_path.parent`.  The draft markdown itself and
its directory are never renamed. -/
def handle_repub (archDir : Dir) (draftName content : List Char)
    (renames : List Rename) : Dir :=
  let srcMd := update_image_refs content renames
  renames.foldl renameStep (aput archDir draftName (FData.text srcMd))

/-- The filesystem fragment the re-publish path touches: the name of the
archive bundle directory (a directory under `published/`, so
`is_already_published` holds), the draft markdown's file name inside it,
that directory's contents, its parent directory (the fallback image lookup
of `find_image`), and the Hugo content directory mapping slugs to output
bundles. -/
structure PState where
  archDirName : List Char
  draftName : List Char
  arch : Dir
  parentDir : Dir
  blog : List (List Char × Dir)
deriving DecidableEq

/-- `BlogPublisher.publish` on a draft already inside `published/`, with
`dry_run` false and every prompt answered with its default (keep the
existing front matter, confirm):  read the draft (lines 658-670; a missing
file or a non-`.md` suffix raises), parse it (line 671), require valid
front matter (interactive collection, modelled as `none`, would start
otherwise), complete it (line 695), compute the slug from the title and
date strings (line 701; non-string values raise in `generate_slug`), then
`_publish_content` (lines 764-792): create the output bundle
(`mkdir` with `exist_ok`), process the images, write the bundle's
`index.md` from the sorted dump of the completed mapping and the rewritten
body, and hand the source file to the re-publish branch.  Git operations
(line 706) touch no modelled state.  `none` models an exception or an
interactive prompt. -/
def republish (dec : List Nat → Option PILImage) (maxW : Nat)
    (now : List Char) (st : PState) : Option PState :=
  match alookup st.arch st.draftName with
  | none => none
  | some (FData.bytes _) => none
  | some (FData.enc _ _ _) => none
  | some (FData.text content) =>
    if pySuffix st.draftName = s2l ".md" then
      match parse content with
      | none => none
      | some (fmOpt, body, _) =>
        match fmOpt with
        | none => none
        | some fm0 =>
          if (validate (some fm0)).1 = true then
            let fm := ensure_complete now fm0
            match dlookup fm (s2l "title"), dlookup fm (s2l "date") with
            | some (YVal.ys title), some (YVal.ys dateStr) =>
              let slug := generate_slug title dateStr
              let bundle0 := (alookup st.blog slug).getD []
              let r := process_images dec maxW st.arch st.parentDir true
                slug body bundle0
              some { st with
                arch := handle_repub st.arch st.draftName content r.2.2,
                blog := aput st.blog slug
                  (aput r.2.1 (s2l "index.md")
                    (FData.text (create_markdown (sortFM fm) r.1))) }
            | _, _ => none
          else none
    else none

/-- Front matter of the idempotence witness and of the concrete
re-publish states: all defaulted keys present, sorted, plain scalars. -/
def fmW : FMap :=
  [(s2l "categories", YVal.yl [s2l "a"]),
   (s2l "date", YVal.ys (s2l "date20260101x")),
   (s2l "draft", YVal.yb false),
   (s2l "tags", YVal.yl [s2l "b"]),
   (s2l "title", YVal.ys (s2l "Hello")),
   (s2l "type", YVal.ys (s2l "blog"))]

/-- Archive directory whose draft body references `q.png` twice. -/
def archC3 : Dir :=
  [(s2l "index.md",
    FData.text (create_markdown fmW (s2l "![x](q.png) ![x](q.png)"))),
   (s2l "q.png", FData.bytes [1, 2, 3])]

/-- Re-publish state whose body holds two identical image references. -/
def stC3 : PState := ⟨s2l "20260101_hello", s2l "index.md", archC3, [], []⟩

/-- Archive directory whose bundle is named differently from the slug the
draft's current title and date produce. -/
def archC4 : Dir :=
  [(s2l "index.md",
    FData.text (create_markdown fmW (s2l "![x](q.png) end"))),
   (s2l "q.png", FData.bytes [1, 2, 3])]

/-- Re-publish state of a draft archived under an out-of-date name. -/
def stC4 : PState := ⟨s2l "20250101_old_name", s2l "index.md", archC4, [], []⟩

/-- Archive directory of the idempotence witness: one local reference. -/
def archW : Dir :=
  [(s2l "index.md",
    FData.text (create_markdown fmW
      (s2l "start " ++ (mkRef (s2l "x") (s2l "q.png") ++ s2l " end")))),
   (s2l "q.png", FData.bytes [1, 2, 3])]

/-- The state `republish` produces from `stC4`: the draft is overwritten
in place with the substituted reference, the image is renamed inside the
archive, the bundle is written — and both the bundle directory's name and
the markdown's own name are left exactly as they were. -/
def stC4r : PState :=
  ⟨s2l "20250101_old_name", s2l "index.md",
   [(s2l "index.md",
     FData.text (create_markdown fmW (s2l "![x](date202601_hello-01.png) end"))),
    (s2l "date202601_hello-01.png", FData.bytes [1, 2, 3])],
   [],
   [(s2l "date202601_hello",
     [(s2l "date202601_hello-01.png", FData.bytes [1, 2, 3]),
      (s2l "index.md",
       FData.text (create_markdown fmW
         (s2l "![x](date202601_hello-01.png) end")))])]⟩

/-- Association-list lookups behave on appends like Python dict lookup on a
dict extended with fresh keys. -/
theorem dlookup_append (a b : FMap) (k : List Char) :
    dlookup (a ++ b) k =
      match dlookup a k with
      | some v => some v
      | none => dlookup b k := by
  induction a with
  | nil => rfl
  | cons p rest ih =>
    obtain ⟨k', v⟩ := p
    by_cases h : k' = k
    · simp [dlookup, h]
    · simp [dlookup, h, ih]

/-- A lookup that already succeeds is unchanged by appending entries. -/
theorem dlookup_append_some {a : FMap} {k : List Char} {v : YVal}
    (h : dlookup a k = some v) (b : FMap) : dlookup (a ++ b) k = some v := by
  rw [dlookup_append, h]

/-- A failed lookup skips over the left part of an append. -/
theorem dlookup_append_none {a : FMap} {k : List Char}
    (h : dlookup a k = none) (b : FMap) : dlookup (a ++ b) k = dlookup b k := by
  rw [dlookup_append, h]

/-- Wrong-type reports: if a required field is present with a mismatching
shape, the loop over the field table reports `<field> (wrong type)`. -/
theorem mem_missingLoop_wrong_type
    (fields : List (List Char × FType)) (fm : FMap) (k : List Char)
    (exp : FType) (v : YVal) (hmem : (k, exp) ∈ fields)
    (hlook : dlookup fm k = some v) (hshape : shapeOk exp v = false) :
    (k ++ s2l " (wrong type)") ∈ missingLoop fm fields := by
  induction fields with
  | nil => cases hmem
  | cons p rest ih =>
    obtain ⟨f, t⟩ := p
    rcases List.mem_cons.mp hmem with h | h
    · obtain ⟨hk, ht⟩ := Prod.mk.injEq .. ▸ h
      subst hk; subst ht
      simp only [missingLoop, hlook, hshape]
      simp
    · have := ih h
      simp only [missingLoop]
      cases hfound : dlookup fm f with
      | none => exact List.mem_cons_of_mem _ this
      | some w =>
        by_cases hs : shapeOk t w
        · simpa [hs] using this
        · simp only [hs, if_false]
          exact List.mem_cons_of_mem _ this

/-- C6: `validate` returns `(false, ["all fields (no frontmatter)"])` on an
absent or empty front-matter mapping, returns
`(false, ["categories", "tags"])` on a mapping containing only
`title: 'x'`, and reports any required field present with the wrong shape
as `<field> (wrong type)`. -/
theorem validate_spec :
    validate none = (false, [s2l "all fields (no frontmatter)"]) ∧
    validate (some []) = (false, [s2l "all fields (no frontmatter)"]) ∧
    validate (some [(s2l "title", YVal.ys (s2l "x"))]) =
      (false, [s2l "categories", s2l "tags"]) ∧
    (∀ (fm : FMap) (k : List Char) (exp : FType) (v : YVal),
      (k, exp) ∈ REQUIRED_FIELDS → dlookup fm k = some v →
      shapeOk exp v = false →
      (k ++ s2l " (wrong type)") ∈ (validate (some fm)).2) := by
  refine ⟨by decide, by decide, by decide, ?_⟩
  intro fm k exp v hmem hlook hshape
  have hne : fm ≠ [] := by
    intro h; subst h; simp [dlookup] at hlook
  simp only [validate, if_neg hne]
  exact mem_missingLoop_wrong_type REQUIRED_FIELDS fm k exp v hmem hlook hshape

/-- Witness for C6: a mapping whose `title` is a list is reported with a
wrong-type entry. -/
theorem validate_spec_witness :
    (s2l "title", FType.tstr) ∈ REQUIRED_FIELDS ∧
    dlookup [(s2l "title", YVal.yl [])] (s2l "title") = some (YVal.yl []) ∧
    shapeOk FType.tstr (YVal.yl []) = false ∧
    (s2l "title" ++ s2l " (wrong type)") ∈
      (validate (some [(s2l "title", YVal.yl [])])).2 :=
  ⟨by decide, by decide, by decide,
    validate_spec.2.2.2 [(s2l "title", YVal.yl [])] (s2l "title") FType.tstr
      (YVal.yl []) (by decide) (by decide) (by decide)⟩

/-- C7: the slug of title `"My Cool Post!"` and date
`"2026-01-15T00:00:00Z"` is `"20260115_my_cool_post"`, and an example with
repeated hyphen/whitespace runs and leading/trailing separators shows the
collapse-and-trim behaviour of `generate_slug`. -/
theorem slug_example :
    generate_slug (s2l "My Cool Post!") (s2l "2026-01-15T00:00:00Z") =
      s2l "20260115_my_cool_post" ∧
    generate_slug (s2l " --Weird  -- Name-- ") (s2l "2026-02-03") =
      s2l "20260203_weird_name" := by
  constructor <;> decide

/-- Lookups skip a single appended entry with a different key. -/
theorem dlookup_append_ne (a : FMap) (k k' : List Char) (v : YVal)
    (h : k' ≠ k) : dlookup (a ++ [(k', v)]) k = dlookup a k := by
  rw [dlookup_append]
  cases hv : dlookup a k <;> simp [dlookup, h]

/-- Normal form of `ensure_complete`: the input dict followed by the
defaults for exactly the keys that were absent. -/
theorem ensure_complete_eq (now : List Char) (fm : FMap) :
    ensure_complete now fm =
      fm ++
        ((if (dlookup fm (s2l "date")).isSome then []
          else [(s2l "date", YVal.ys now)]) ++
         ((if (dlookup fm (s2l "type")).isSome then []
           else [(s2l "type", YVal.ys (s2l "blog"))]) ++
          (if (dlookup fm (s2l "draft")).isSome then []
           else [(s2l "draft", YVal.yb false)]))) := by
  have hdt : dlookup (fm ++ [(s2l "date", YVal.ys now)]) (s2l "type") =
      dlookup fm (s2l "type") :=
    dlookup_append_ne fm _ _ _ (by decide)
  have hdd : dlookup (fm ++ [(s2l "date", YVal.ys now)]) (s2l "draft") =
      dlookup fm (s2l "draft") :=
    dlookup_append_ne fm _ _ _ (by decide)
  have htd : ∀ g : FMap,
      dlookup (g ++ [(s2l "type", YVal.ys (s2l "blog"))]) (s2l "draft") =
        dlookup g (s2l "draft") :=
    fun g => dlookup_append_ne g _ _ _ (by decide)
  have hdd2 : dlookup (fm ++ [(s2l "date", YVal.ys now),
      (s2l "type", YVal.ys (s2l "blog"))]) (s2l "draft") =
      dlookup fm (s2l "draft") := by
    rw [dlookup_append]
    cases hv : dlookup fm (s2l "draft") <;>
      simp [dlookup, show s2l "date" ≠ s2l "draft" from by decide,
        show s2l "type" ≠ s2l "draft" from by decide]
  simp only [ensure_complete]
  by_cases h1 : (dlookup fm (s2l "date")).isSome <;>
    by_cases h2 : (dlookup fm (s2l "type")).isSome <;>
      by_cases h3 : (dlookup fm (s2l "draft")).isSome <;>
        simp [h1, h2, h3, hdt, hdd, htd, hdd2, List.append_assoc]

/-- C8: `ensure_complete` preserves every key/value pair present in the
input, and fills `date` (with the supplied current-time string), `type`
(with `"blog"`) and `draft` (with `false`) exactly when they are absent. -/
theorem ensure_complete_spec (now : List Char) (fm : FMap) :
    (∀ (k : List Char) (v : YVal), dlookup fm k = some v →
      dlookup (ensure_complete now fm) k = some v) ∧
    (dlookup fm (s2l "date") = none →
      dlookup (ensure_complete now fm) (s2l "date") = some (YVal.ys now)) ∧
    (dlookup fm (s2l "type") = none →
      dlookup (ensure_complete now fm) (s2l "type") =
        some (YVal.ys (s2l "blog"))) ∧
    (dlookup fm (s2l "draft") = none →
      dlookup (ensure_complete now fm) (s2l "draft") =
        some (YVal.yb false)) := by
  have ndt : s2l "date" ≠ s2l "type" := by decide
  have ndd : s2l "date" ≠ s2l "draft" := by decide
  have ntd : s2l "type" ≠ s2l "draft" := by decide
  refine ⟨?_, ?_, ?_, ?_⟩
  · intro k v hv
    rw [ensure_complete_eq]
    exact dlookup_append_some hv _
  · intro hd
    rw [ensure_complete_eq, dlookup_append_none hd, hd]
    simp [dlookup]
  · intro ht
    rw [ensure_complete_eq, dlookup_append_none ht, ht]
    by_cases h1 : (dlookup fm (s2l "date")).isSome <;>
      simp [h1, dlookup, ndt]
  · intro hd
    rw [ensure_complete_eq, dlookup_append_none hd, hd]
    by_cases h1 : (dlookup fm (s2l "date")).isSome <;>
      by_cases h2 : (dlookup fm (s2l "type")).isSome <;>
        simp [h1, h2, dlookup, ndd, ntd]

/-- Witness for C8: on a dict containing only a title, the title survives
and `date` is filled with the supplied timestamp. -/
theorem ensure_complete_spec_witness :
    dlookup [(s2l "title", YVal.ys (s2l "x"))] (s2l "title") =
      some (YVal.ys (s2l "x")) ∧
    dlookup (ensure_complete (s2l "N") [(s2l "title", YVal.ys (s2l "x"))])
      (s2l "title") = some (YVal.ys (s2l "x")) ∧
    dlookup (ensure_complete (s2l "N") [(s2l "title", YVal.ys (s2l "x"))])
      (s2l "date") = some (YVal.ys (s2l "N")) :=
  ⟨by decide,
    (ensure_complete_spec (s2l "N") [(s2l "title", YVal.ys (s2l "x"))]).1
      (s2l "title") (YVal.ys (s2l "x")) (by decide),
    (ensure_complete_spec (s2l "N") [(s2l "title", YVal.ys (s2l "x"))]).2.1
      (by decide)⟩

/-- Counterexample for C2: a 3000x1001 image at `max_width = 1920` is
resized to height `int(1001 * (1920/3000)) = 640`, but the claimed formula
`round(1001 * 1920 / 3000)` gives `641`, so the claim as stated is false at
this input. -/
theorem optimize_image_round_cex :
    optimize_image dec3000 1920 [7] = FData.enc 1920 640 [7] ∧
    roundDiv (1001 * 1920) 3000 = 641 ∧
    optimize_image dec3000 1920 [7] ≠
      FData.enc 1920 (roundDiv (1001 * 1920) 3000) [7] := by
  refine ⟨by decide, by decide, by decide⟩

/-- C2 (amended): for every decodable source image, `optimize_image`
copies the file byte-for-byte when the width is at most `max_width`, and
otherwise resizes to exactly `max_width` wide with new height equal to the
truncation `floor(original_height * max_width / original_width)`. -/
theorem optimize_image_threshold (dec : List Nat → Option PILImage)
    (maxW : Nat) (src : List Nat) (img : PILImage) (h : dec src = some img) :
    (img.width ≤ maxW → optimize_image dec maxW src = FData.bytes src) ∧
    (maxW < img.width →
      optimize_image dec maxW src =
        FData.enc maxW (img.height * maxW / img.width) src) := by
  constructor
  · intro hle
    simp only [optimize_image, h]
    rw [if_neg (by omega)]
  · intro hlt
    simp only [optimize_image, h, if_pos hlt]

/-- Witness for C2: the amended theorem applied to the concrete 3000-wide
image. -/
theorem optimize_image_threshold_witness :
    dec3000 [7] = some ⟨3000, 1001⟩ ∧
    (1920 < 3000 ∧
      optimize_image dec3000 1920 [7] =
        FData.enc 1920 (1001 * 1920 / 3000) [7]) :=
  ⟨by decide,
    ⟨by decide,
      (optimize_image_threshold dec3000 1920 [7] ⟨3000, 1001⟩ (by decide)).2
        (by decide)⟩⟩

/-- `takeWhile` passes over a block whose characters all satisfy the
predicate. -/
theorem takeWhile_append_all {α : Type} {p : α → Bool} (k rest : List α)
    (hk : ∀ c ∈ k, p c = true) :
    List.takeWhile p (k ++ rest) = k ++ List.takeWhile p rest := by
  induction k with
  | nil => rfl
  | cons c t ih =>
    have hc : p c = true := hk c (List.mem_cons_self c t)
    simp only [List.cons_append, List.takeWhile_cons, hc, if_true]
    rw [ih (fun d hd => hk d (List.mem_cons_of_mem c hd))]

/-- `dropWhile` passes over a block whose characters all satisfy the
predicate. -/
theorem dropWhile_append_all {α : Type} {p : α → Bool} (k rest : List α)
    (hk : ∀ c ∈ k, p c = true) :
    List.dropWhile p (k ++ rest) = List.dropWhile p rest := by
  induction k with
  | nil => rfl
  | cons c t ih =>
    have hc : p c = true := hk c (List.mem_cons_self c t)
    simp only [List.cons_append, List.dropWhile_cons, hc, if_true]
    exact ih (fun d hd => hk d (List.mem_cons_of_mem c hd))

/-- A newline-free line splits as itself. -/
theorem splitNl_no_nl (l : List Char) (h : '\n' ∉ l) : splitNl l = [l] := by
  induction l with
  | nil => rfl
  | cons c t ih =>
    have hc : c ≠ '\n' := fun hcc => h (hcc ▸ List.mem_cons_self c t)
    have ht : '\n' ∉ t := fun htt => h (List.mem_cons_of_mem c htt)
    simp only [splitNl, if_neg hc, ih ht]

/-- Splitting after a newline-free line peels off that line. -/
theorem splitNl_append_nl (l r : List Char) (h : '\n' ∉ l) :
    splitNl (l ++ '\n' :: r) = l :: splitNl r := by
  induction l with
  | nil => simp [splitNl]
  | cons c t ih =>
    have hc : c ≠ '\n' := fun hcc => h (hcc ▸ List.mem_cons_self c t)
    have ht : '\n' ∉ t := fun htt => h (List.mem_cons_of_mem c htt)
    simp only [List.cons_append, splitNl, if_neg hc, List.append_eq, ih ht]

/-- Splitting the newline-joined form of newline-free lines recovers the
lines. -/
theorem splitNl_icl (ls : List (List Char)) (hne : ls ≠ [])
    (h : ∀ l ∈ ls, '\n' ∉ l) : splitNl (icl ls) = ls := by
  induction ls with
  | nil => cases hne rfl
  | cons l rest ih =>
    cases rest with
    | nil => exact splitNl_no_nl l (h l (List.mem_cons_self l []))
    | cons l2 rest2 =>
      have h1 : '\n' ∉ l := h l (List.mem_cons_self _ _)
      have h2 : ∀ x ∈ l2 :: rest2, '\n' ∉ x :=
        fun x hx => h x (List.mem_cons_of_mem l hx)
      simp only [icl]
      rw [splitNl_append_nl l _ h1, ih (by simp) h2]

/-- `joinNl` terminates the newline-separated join with a final newline. -/
theorem joinNl_eq_icl (ls : List (List Char)) (hne : ls ≠ []) :
    joinNl ls = icl ls ++ ['\n'] := by
  induction ls with
  | nil => cases hne rfl
  | cons l rest ih =>
    cases rest with
    | nil => simp [joinNl, icl]
    | cons l2 rest2 =>
      have h2 : joinNl (l2 :: rest2) = icl (l2 :: rest2) ++ ['\n'] :=
        ih (by simp)
      show l ++ '\n' :: joinNl (l2 :: rest2) = (l ++ '\n' :: icl (l2 :: rest2)) ++ ['\n']
      rw [h2]
      simp

/-- A plain-safe scalar is not resolved as a boolean by the loader. -/
theorem parseScalar_plainSafe (v : List Char) (h : plainSafe v = true) :
    parseScalar v = YVal.ys v := by
  unfold parseScalar
  by_cases ht : v ∈ trueWords
  · exfalso
    simp only [trueWords, s2l, List.mem_cons, List.not_mem_nil, or_false] at ht
    rcases ht with h' | h' | h' | h' | h' | h' | h' | h' | h' <;>
      (subst h'; exact absurd h (by decide))
  · rw [if_neg ht]
    by_cases hf : v ∈ falseWords
    · exfalso
      simp only [falseWords, s2l, List.mem_cons, List.not_mem_nil, or_false] at hf
      rcases hf with h' | h' | h' | h' | h' | h' | h' | h' | h' <;>
        (subst h'; exact absurd h (by decide))
    · rw [if_neg hf]

/-- Plain keys contain no colon. -/
theorem plainKey_no_colon {k : List Char} (h : plainKey k = true) :
    ∀ c ∈ k, notColon c = true := by
  intro c hc
  have hall : ∀ x ∈ k, (asciiAlpha x || decide (x = '_')) = true := by
    cases k with
    | nil => cases hc
    | cons c0 t =>
      simp only [plainKey, Bool.and_eq_true, List.all_eq_true] at h
      exact h.2
  have hx := hall c hc
  simp only [notColon, decide_eq_true_eq]
  intro hcc
  subst hcc
  exact absurd hx (by decide)

/-- `lineKey` on a scalar line of the dump. -/
theorem lineKey_scalar (k v : List Char) (hk : plainKey k = true) :
    lineKey (k ++ ':' :: ' ' :: v) = some (k, some v) := by
  simp only [lineKey]
  rw [takeWhile_append_all k _ (plainKey_no_colon hk),
    dropWhile_append_all k _ (plainKey_no_colon hk)]
  simp [List.takeWhile_cons, List.dropWhile_cons, notColon]

/-- `lineKey` on a list-key line of the dump. -/
theorem lineKey_listkey (k : List Char) (hk : plainKey k = true) :
    lineKey (k ++ [':']) = some (k, none) := by
  simp only [lineKey]
  rw [takeWhile_append_all k _ (plainKey_no_colon hk),
    dropWhile_append_all k _ (plainKey_no_colon hk)]
  simp [List.takeWhile_cons, List.dropWhile_cons, notColon]

/-- A line starting with a letter is not a block-sequence item line. -/
theorem isItem_alpha {c : Char} (t : List Char) (h : asciiAlpha c = true) :
    isItem (c :: t) = false := by
  have hc : (decide (c = '-')) = false := by
    cases hcd : decide (c = '-') with
    | false => rfl
    | true =>
      have : c = '-' := of_decide_eq_true hcd
      subst this
      exact absurd h (by decide)
  cases t with
  | nil => rfl
  | cons c2 t2 => simp [isItem, hc]

/-- A plain key is nonempty and starts with a letter. -/
theorem plainKey_head {k : List Char} (h : plainKey k = true) :
    ∃ c t, k = c :: t ∧ asciiAlpha c = true := by
  cases k with
  | nil => exact absurd h (by decide)
  | cons c t =>
    refine ⟨c, t, rfl, ?_⟩
    simp only [plainKey, Bool.and_eq_true] at h
    exact h.1

/-- Plain keys contain no newline. -/
theorem plainKey_no_nl {k : List Char} (h : plainKey k = true) : '\n' ∉ k := by
  intro hm
  have hall : ∀ x ∈ k, (asciiAlpha x || decide (x = '_')) = true := by
    cases k with
    | nil => cases hm
    | cons c0 t =>
      simp only [plainKey, Bool.and_eq_true, List.all_eq_true] at h
      exact h.2
  exact absurd (hall '\n' hm) (by decide)

/-- All characters of a plain-safe scalar are plain. -/
theorem plainSafe_all_plain {v : List Char} (h : plainSafe v = true) :
    ∀ c ∈ v, plainChar c = true := by
  cases v with
  | nil => intro c hc; cases hc
  | cons c0 t =>
    simp only [plainSafe, Bool.and_eq_true, List.all_eq_true] at h
    exact h.1.1.2

/-- Plain-safe scalars contain no newline. -/
theorem plainSafe_no_nl {v : List Char} (h : plainSafe v = true) : '\n' ∉ v :=
  fun hm => absurd (plainSafe_all_plain h '\n' hm) (by decide)

/-- ASCII letters are not whitespace. -/
theorem asciiAlpha_not_space {c : Char} (h : asciiAlpha c = true) :
    pySpace c = false := by
  cases hsp : pySpace c
  · rfl
  · exfalso
    simp only [pySpace, Bool.or_eq_true, decide_eq_true_eq] at hsp
    rcases hsp with ((((h1 | h1) | h1) | h1) | h1) | h1 <;>
      (subst h1; exact absurd h (by decide))

/-- Shape of the lines the dump emits: nonempty, newline-free, and either
starting with a letter or of the `- item` shape. -/
def lineGood (l : List Char) : Prop :=
  l ≠ [] ∧ '\n' ∉ l ∧
    ((∃ c t, l = c :: t ∧ asciiAlpha c = true) ∨ ∃ s, l = '-' :: ' ' :: s)

/-- Every line emitted for a well-formed entry is good. -/
theorem dumpVal_lineGood (k : List Char) (v : YVal) (hk : plainKey k = true)
    (hv : wfVal v = true) : ∀ l ∈ dumpVal k v, lineGood l := by
  obtain ⟨c, t, hkct, hca⟩ := plainKey_head hk
  cases v with
  | ys s =>
    intro l hl
    simp only [dumpVal, List.mem_singleton] at hl
    subst hl
    refine ⟨by simp [hkct], ?_, Or.inl ⟨c, t ++ ':' :: ' ' :: s, by simp [hkct], hca⟩⟩
    intro hm
    rcases List.mem_append.mp hm with hmk | hmr
    · exact plainKey_no_nl hk hmk
    · rcases List.mem_cons.mp hmr with h1 | hmr2
      · exact absurd h1 (by decide)
      · rcases List.mem_cons.mp hmr2 with h2 | hms
        · exact absurd h2 (by decide)
        · exact plainSafe_no_nl hv hms
  | yb b =>
    intro l hl
    simp only [dumpVal, List.mem_singleton] at hl
    subst hl
    refine ⟨by simp [hkct], ?_,
      Or.inl ⟨c, t ++ ':' :: ' ' :: (if b then s2l "true" else s2l "false"),
        by simp [hkct], hca⟩⟩
    intro hm
    rcases List.mem_append.mp hm with hmk | hmr
    · exact plainKey_no_nl hk hmk
    · rcases List.mem_cons.mp hmr with h1 | hmr2
      · exact absurd h1 (by decide)
      · rcases List.mem_cons.mp hmr2 with h2 | hms
        · exact absurd h2 (by decide)
        · cases b <;>
            (simp only [s2l] at hms; revert hms; decide)
  | yl vs =>
    intro l hl
    simp only [wfVal, Bool.and_eq_true, List.all_eq_true] at hv
    rcases List.mem_cons.mp hl with h1 | h2
    · subst h1
      refine ⟨by simp [hkct], ?_, Or.inl ⟨c, t ++ [':'], by simp [hkct], hca⟩⟩
      intro hm
      rcases List.mem_append.mp hm with hmk | hmr
      · exact plainKey_no_nl hk hmk
      · rcases List.mem_cons.mp hmr with hx | hx
        · exact absurd hx (by decide)
        · cases hx
    · simp only [List.mem_map] at h2
      obtain ⟨s, hs, rfl⟩ := h2
      refine ⟨by simp, ?_, Or.inr ⟨s, rfl⟩⟩
      intro hm
      rcases List.mem_cons.mp hm with hx | hx
      · exact absurd hx (by decide)
      · rcases List.mem_cons.mp hx with hy | hy
        · exact absurd hy (by decide)
        · exact plainSafe_no_nl (hv.2 s hs) hy

/-- Destructure the well-formedness of the first entry. -/
theorem wfEntries_cons {k : List Char} {v : YVal} {fm : FMap}
    (h : wfEntries ((k, v) :: fm) = true) :
    plainKey k = true ∧ wfVal v = true ∧ wfEntries fm = true := by
  simp only [wfEntries, List.all_cons, Bool.and_eq_true] at h
  exact ⟨h.1.1, h.1.2, by simp only [wfEntries]; exact h.2⟩

/-- Every line of the dump of well-formed entries is good. -/
theorem dumpLines_lineGood (fm : FMap) (h : wfEntries fm = true) :
    ∀ l ∈ dumpLines fm, lineGood l := by
  induction fm with
  | nil => intro l hl; cases hl
  | cons e fm' ih =>
    obtain ⟨k, v⟩ := e
    obtain ⟨hk, hv, hfm'⟩ := wfEntries_cons h
    intro l hl
    rcases List.mem_append.mp hl with h1 | h2
    · exact dumpVal_lineGood k v hk hv l h1
    · exact ih hfm' l h2

/-- The dump of a nonempty well-formed mapping starts with a letter-headed
line. -/
theorem dumpLines_head (k : List Char) (v : YVal) (fm : FMap)
    (hk : plainKey k = true) :
    ∃ c t rest, dumpLines ((k, v) :: fm) = (c :: t) :: rest ∧
      asciiAlpha c = true := by
  obtain ⟨c, t, hkct, hca⟩ := plainKey_head hk
  cases v with
  | ys s => exact ⟨c, t ++ ':' :: ' ' :: s, dumpLines fm, by simp [dumpLines, dumpVal, hkct], hca⟩
  | yb b =>
    exact ⟨c, t ++ ':' :: ' ' :: (if b then s2l "true" else s2l "false"),
      dumpLines fm, by simp [dumpLines, dumpVal, hkct], hca⟩
  | yl vs =>
    exact ⟨c, t ++ [':'], vs.map (fun s => '-' :: ' ' :: s) ++ dumpLines fm,
      by simp [dumpLines, dumpVal, hkct], hca⟩

/-- Fuel irrelevance for the line loader: any sufficient fuel computes the
same result. -/
theorem loadLinesF_fuel (n : Nat) :
    ∀ (m : Nat) (ls : List (List Char)), ls.length ≤ n → ls.length ≤ m →
      loadLinesF n ls = loadLinesF m ls := by
  induction n with
  | zero =>
    intro m ls h1 _
    have : ls = [] := List.eq_nil_of_length_eq_zero (Nat.le_zero.mp h1)
    subst this
    cases m <;> rfl
  | succ n ih =>
    intro m ls h1 h2
    cases ls with
    | nil => cases m <;> rfl
    | cons l rest =>
      cases m with
      | zero => simp at h2
      | succ m =>
        simp only [List.length_cons, Nat.succ_le_succ_iff] at h1 h2
        have e1 : loadLinesF n rest = loadLinesF m rest := ih m rest h1 h2
        have hd : (rest.drop (rest.takeWhile isItem).length).length ≤
            rest.length := by
          rw [List.length_drop]; omega
        have e2 : loadLinesF n (rest.drop (rest.takeWhile isItem).length) =
            loadLinesF m (rest.drop (rest.takeWhile isItem).length) :=
          ih m _ (le_trans hd h1) (le_trans hd h2)
        simp only [loadLinesF]
        rw [e1, e2]

/-- Loading the dump of well-formed entries with sufficient fuel recovers
the mapping. -/
theorem loadLinesF_dump (fm : FMap) :
    ∀ n, wfEntries fm = true → (dumpLines fm).length ≤ n →
      loadLinesF n (dumpLines fm) = some fm := by
  induction fm with
  | nil =>
    intro n _ _
    cases n <;> rfl
  | cons e fm' ih =>
    intro n hwf hlen
    obtain ⟨k, v⟩ := e
    obtain ⟨hk, hv, hwf'⟩ := wfEntries_cons hwf
    obtain ⟨c, t, hkct, hca⟩ := plainKey_head hk
    have hkne : k ≠ [] := by rw [hkct]; simp
    cases v with
    | ys s =>
      have hline : dumpLines ((k, YVal.ys s) :: fm') =
          (k ++ ':' :: ' ' :: s) :: dumpLines fm' := by
        simp [dumpLines, dumpVal]
      rw [hline] at hlen ⊢
      cases n with
      | zero => simp at hlen
      | succ n =>
        have hitem : isItem (k ++ ':' :: ' ' :: s) = false := by
          rw [hkct]; exact isItem_alpha _ hca
        simp only [loadLinesF, hitem, Bool.false_eq_true, if_false,
          lineKey_scalar k s hk, if_neg hkne]
        rw [ih n hwf' (by simp at hlen; omega)]
        rw [parseScalar_plainSafe s hv]
        rfl
    | yb b =>
      have hline : dumpLines ((k, YVal.yb b) :: fm') =
          (k ++ ':' :: ' ' :: (if b then s2l "true" else s2l "false")) ::
            dumpLines fm' := by
        simp [dumpLines, dumpVal]
      rw [hline] at hlen ⊢
      cases n with
      | zero => simp at hlen
      | succ n =>
        have hitem : isItem (k ++ ':' :: ' ' ::
            (if b then s2l "true" else s2l "false")) = false := by
          rw [hkct]; exact isItem_alpha _ hca
        simp only [loadLinesF, hitem, Bool.false_eq_true, if_false,
          lineKey_scalar k _ hk, if_neg hkne]
        rw [ih n hwf' (by simp at hlen; omega)]
        cases b <;> simp [parseScalar, trueWords, falseWords, s2l]
    | yl vs =>
      have hline : dumpLines ((k, YVal.yl vs) :: fm') =
          (k ++ [':']) :: (vs.map (fun s => '-' :: ' ' :: s) ++ dumpLines fm') := by
        simp [dumpLines, dumpVal]
      simp only [wfVal, Bool.and_eq_true, List.all_eq_true] at hv
      have hvs : vs ≠ [] := by
        intro h0
        rw [h0] at hv
        exact absurd hv.1 (by decide)
      rw [hline] at hlen ⊢
      cases n with
      | zero => simp at hlen
      | succ n =>
        have hitem : isItem (k ++ [':']) = false := by
          rw [hkct]; exact isItem_alpha _ hca
        have hitems : List.takeWhile isItem
            (vs.map (fun s => '-' :: ' ' :: s) ++ dumpLines fm') =
            vs.map (fun s => '-' :: ' ' :: s) := by
          rw [takeWhile_append_all _ _ (by
            intro l hl
            simp only [List.mem_map] at hl
            obtain ⟨s, _, rfl⟩ := hl
            rfl)]
          cases hfm : dumpLines fm' with
          | nil => simp
          | cons l0 rest0 =>
            cases hfm' : fm' with
            | nil => rw [hfm'] at hfm; simp [dumpLines] at hfm
            | cons e2 fm2 =>
              obtain ⟨k2, v2⟩ := e2
              have hk2 : plainKey k2 = true := by
                rw [hfm'] at hwf'
                exact (wfEntries_cons hwf').1
              obtain ⟨c2, t2, rest2, hdl, hca2⟩ := dumpLines_head k2 v2 fm2 hk2
              rw [hfm'] at hfm
              rw [hdl] at hfm
              cases hfm
              rw [List.takeWhile_cons, isItem_alpha _ hca2]
              simp
        have hmapne : vs.map (fun s => '-' :: ' ' :: s) ≠ [] := by
          simp [hvs]
        simp only [loadLinesF, hitem, Bool.false_eq_true, if_false,
          lineKey_listkey k hk, hitems]
        rw [if_neg (by simp [hkne, hmapne])]
        rw [List.drop_left]
        have hfuel : (dumpLines fm').length ≤ n := by
          simp only [List.length_cons, List.length_append] at hlen
          omega
        rw [ih n hwf' hfuel]
        have hmap : (vs.map (fun s => '-' :: ' ' :: s)).map itemVal = vs := by
          rw [List.map_map]
          have : (itemVal ∘ fun s => '-' :: ' ' :: s) = id := by
            funext s; rfl
          rw [this, List.map_id]
        rw [hmap]
        rfl

/-- Loading the dump of a nonempty well-formed mapping (without its final
newline, as captured by the front-matter regex) recovers the mapping. -/
theorem loadYaml_dump (fm : FMap) (h : wfEntries fm = true) (hne : fm ≠ []) :
    loadYaml (icl (dumpLines fm)) = some (some fm) := by
  obtain ⟨e, fm', rfl⟩ : ∃ e fm', fm = e :: fm' := by
    cases fm with
    | nil => cases hne rfl
    | cons e fm' => exact ⟨e, fm', rfl⟩
  obtain ⟨k, v⟩ := e
  have hk : plainKey k = true := (wfEntries_cons h).1
  obtain ⟨c, t, rest, hdl, hca⟩ := dumpLines_head k v fm' hk
  have hlinesne : dumpLines ((k, v) :: fm') ≠ [] := by rw [hdl]; simp
  have hnonl : ∀ l ∈ dumpLines ((k, v) :: fm'), '\n' ∉ l :=
    fun l hl => (dumpLines_lineGood _ h l hl).2.1
  have hsplit : splitNl (icl (dumpLines ((k, v) :: fm'))) =
      dumpLines ((k, v) :: fm') :=
    splitNl_icl _ hlinesne hnonl
  have hnotspace : (icl (dumpLines ((k, v) :: fm'))).all pySpace = false := by
    rw [hdl]
    have hcs : pySpace c = false := asciiAlpha_not_space hca
    cases rest with
    | nil => simp [icl, hcs]
    | cons l2 rest2 => simp [icl, hcs]
  unfold loadYaml
  rw [if_neg (by rw [hnotspace]; simp)]
  unfold loadLines
  rw [hsplit]
  rw [loadLinesF_dump _ _ h (le_refl _)]

/-- The matcher takes the separator when the text after the lazy group's
current position starts with `\n---` and the trailing `\s*\n` matches. -/
theorem matchMid_hit (t b : List Char) (hws : wsSplit (t.drop 3) = some b)
    (hpre : ['-', '-', '-'].isPrefixOf t = true) :
    matchMid ('\n' :: t) = some ([], b) := by
  simp only [matchMid]
  rw [if_pos ⟨by trivial, hpre⟩, hws]

/-- The lazy group grows by one character whenever the separator does not
match at the current position. -/
theorem matchMid_skip (c : Char) (t : List Char)
    (h : ¬(c = '\n' ∧ ['-', '-', '-'].isPrefixOf t = true)) :
    matchMid (c :: t) = (matchMid t).map (fun r => (c :: r.1, r.2)) := by
  simp only [matchMid]
  rw [if_neg h]
  cases matchMid t with
  | none => rfl
  | some r => obtain ⟨a, b⟩ := r; rfl

/-- The lazy group passes over a newline-free block. -/
theorem matchMid_append (P Q : List Char) (hP : '\n' ∉ P) :
    matchMid (P ++ Q) = (matchMid Q).map (fun r => (P ++ r.1, r.2)) := by
  induction P with
  | nil =>
    simp only [List.nil_append]
    cases matchMid Q with
    | none => rfl
    | some r => obtain ⟨a, b⟩ := r; rfl
  | cons c t ih =>
    have hc : c ≠ '\n' := fun e => hP (e ▸ List.mem_cons_self c t)
    have ht : '\n' ∉ t := fun m => hP (List.mem_cons_of_mem c m)
    rw [List.cons_append, matchMid_skip c _ (fun hand => hc hand.1), ih ht]
    cases matchMid Q with
    | none => rfl
    | some r => obtain ⟨a, b⟩ := r; rfl

/-- Heads of newline-joined lines: the first line's head char leads. -/
theorem icl_head_shape (x : Char) (xs : List Char) (ls : List (List Char)) :
    ∃ Y, icl ((x :: xs) :: ls) = x :: Y := by
  cases ls with
  | nil => exact ⟨xs, rfl⟩
  | cons a as => exact ⟨xs ++ '\n' :: icl (a :: as), by simp [icl]⟩

/-- No good line can begin the `---` separator. -/
theorem lineGood_not_dashes (l : List Char) (hl : lineGood l)
    (ls : List (List Char)) (Q : List Char) :
    ['-', '-', '-'].isPrefixOf (icl (l :: ls) ++ Q) = false := by
  rcases hl.2.2 with ⟨c, t, rfl, hca⟩ | ⟨s, rfl⟩
  · obtain ⟨Y, hY⟩ := icl_head_shape c t ls
    rw [hY]
    have hcne : (('-' : Char) == c) = false := by
      rw [beq_eq_false_iff_ne]
      intro e
      rw [← e] at hca
      exact absurd hca (by decide)
    simp [List.isPrefixOf, hcne]
  · have hsp : ∃ Y, icl (('-' :: ' ' :: s) :: ls) = '-' :: ' ' :: Y := by
      cases ls with
      | nil => exact ⟨s, rfl⟩
      | cons a as => exact ⟨s ++ '\n' :: icl (a :: as), by simp [icl]⟩
    obtain ⟨Y, hY⟩ := hsp
    rw [hY]
    simp [List.isPrefixOf, show (('-' : Char) == ' ') = false from by decide]

/-- The lazy group stops exactly at the separator following the joined
good lines (the serialized front matter contains no `\n---`). -/
theorem matchMid_icl (lines : List (List Char)) (rest b : List Char)
    (hg : ∀ l ∈ lines, lineGood l) (hws : wsSplit rest = some b) :
    matchMid (icl lines ++ '\n' :: '-' :: '-' :: '-' :: rest) =
      some (icl lines, b) := by
  induction lines with
  | nil =>
    simp only [icl, List.nil_append]
    rw [matchMid_hit _ b (by simpa using hws) (by simp [List.isPrefixOf])]
  | cons l ls ih =>
    have hgl := hg l (List.mem_cons_self l ls)
    have hgls : ∀ x ∈ ls, lineGood x := fun x hx => hg x (List.mem_cons_of_mem l hx)
    cases ls with
    | nil =>
      show matchMid (l ++ '\n' :: '-' :: '-' :: '-' :: rest) = some (l, b)
      rw [matchMid_append l _ hgl.2.1,
        matchMid_hit _ b (by simpa using hws) (by simp [List.isPrefixOf])]
      simp
    | cons l2 ls2 =>
      have hgl2 := hgls l2 (List.mem_cons_self l2 ls2)
      show matchMid ((l ++ '\n' :: icl (l2 :: ls2)) ++
          '\n' :: '-' :: '-' :: '-' :: rest) =
        some (l ++ '\n' :: icl (l2 :: ls2), b)
      have hre : (l ++ '\n' :: icl (l2 :: ls2)) ++
          '\n' :: '-' :: '-' :: '-' :: rest =
          l ++ '\n' :: (icl (l2 :: ls2) ++ '\n' :: '-' :: '-' :: '-' :: rest) := by
        simp
      rw [hre, matchMid_append l _ hgl.2.1, matchMid_skip '\n' _ ?nosep, ih hgls]
      · simp
      case nosep =>
        intro hand
        rw [lineGood_not_dashes l2 hgl2 ls2 _] at hand
        exact absurd hand.2 (by simp)

/-- A run that starts with a non-whitespace character fails `\s*\n`. -/
theorem wsSplit_cons_nonws (c : Char) (t : List Char) (h : pySpace c = false) :
    wsSplit (c :: t) = none := by
  simp only [wsSplit]
  rw [if_neg (by simp [h])]

/-- Stepping `\s*\n` over a leading newline. -/
theorem wsSplit_cons_nl (t : List Char) :
    wsSplit ('\n' :: t) =
      match wsSplit t with
      | some r => some r
      | none => some t := by
  simp only [wsSplit]
  rw [if_pos (by decide)]
  cases wsSplit t with
  | some r => rfl
  | none => simp

/-- `\s*\n` on a newline followed by a body that is empty or starts with a
non-whitespace character consumes exactly the newline. -/
theorem wsSplit_nl (body : List Char)
    (h : body = [] ∨ ∃ c t, body = c :: t ∧ pySpace c = false) :
    wsSplit ('\n' :: body) = some body := by
  rcases h with rfl | ⟨c, t, rfl, hc⟩
  · rfl
  · rw [wsSplit_cons_nl, wsSplit_cons_nonws c t hc]

/-- A run that starts with a non-whitespace character fails the opening
`\s*\n`. -/
theorem fmStart_cons_nonws (c : Char) (t : List Char) (h : pySpace c = false) :
    fmStart (c :: t) = none := by
  simp only [fmStart]
  rw [if_neg (by simp [h])]

/-- Stepping the opening `\s*\n` over a leading newline: prefer a longer
run, fall back to consuming just this newline. -/
theorem fmStart_cons_nl (t : List Char) :
    fmStart ('\n' :: t) =
      match fmStart t with
      | some r => some r
      | none => matchMid t := by
  simp only [fmStart]
  rw [if_pos (by decide)]
  cases fmStart t with
  | some r => rfl
  | none => simp

/-- The front-matter regex on composed output captures exactly the
serialized mapping (without its final newline) and the body. -/
theorem matchFMP_create_markdown (fm : FMap) (body : List Char)
    (hwf : wfEntries fm = true) (hne : fm ≠ [])
    (hbody : body = [] ∨ ∃ c t, body = c :: t ∧ pySpace c = false) :
    matchFMP (create_markdown fm body) =
      some (icl (dumpLines fm), body) := by
  obtain ⟨e, fm', rfl⟩ : ∃ e fm', fm = e :: fm' := by
    cases fm with
    | nil => cases hne rfl
    | cons e fm' => exact ⟨e, fm', rfl⟩
  obtain ⟨k, v⟩ := e
  have hk : plainKey k = true := (wfEntries_cons hwf).1
  obtain ⟨c0, t0, rest0, hdl, hca⟩ := dumpLines_head k v fm' hk
  have hLne : dumpLines ((k, v) :: fm') ≠ [] := by rw [hdl]; simp
  have hser : serialize ((k, v) :: fm') =
      icl (dumpLines ((k, v) :: fm')) ++ ['\n'] := joinNl_eq_icl _ hLne
  have hcm : create_markdown ((k, v) :: fm') body =
      '-' :: '-' :: '-' :: '\n' ::
        (icl (dumpLines ((k, v) :: fm')) ++
          '\n' :: '-' :: '-' :: '-' :: '\n' :: body) := by
    unfold create_markdown
    rw [hser, show s2l "---" = ['-', '-', '-'] from by decide]
    simp
  rw [hcm]
  simp only [matchFMP]
  obtain ⟨Y, hY⟩ : ∃ Y, icl (dumpLines ((k, v) :: fm')) = c0 :: Y := by
    rw [hdl]; exact icl_head_shape c0 t0 rest0
  have hmid := matchMid_icl (dumpLines ((k, v) :: fm')) ('\n' :: body) body
    (dumpLines_lineGood _ hwf) (wsSplit_nl body hbody)
  rw [hY] at hmid ⊢
  simp only [List.cons_append] at hmid ⊢
  rw [fmStart_cons_nl, fmStart_cons_nonws c0 _ (asciiAlpha_not_space hca)]
  exact hmid

/-- Unpack the well-formedness of a mapping. -/
theorem wfFM_parts {fm : FMap} (h : wfFM fm = true) :
    fm ≠ [] ∧ sortedKeys fm = true ∧ wfEntries fm = true := by
  simp only [wfFM, Bool.and_eq_true] at h
  refine ⟨?_, h.1.2, h.2⟩
  cases fm with
  | nil => exact absurd h.1.1 (by decide)
  | cons e fm' => simp

/-- Parsing a composed document returns the original mapping and hands the
body to the H1 extraction step. -/
theorem parse_create_markdown (fm : FMap) (body : List Char)
    (hwf : wfFM fm = true)
    (hbody : body = [] ∨ ∃ c t, body = c :: t ∧ pySpace c = false) :
    parse (create_markdown fm body) =
      some (some fm, remove_h1 body, extract_h1_title body) := by
  obtain ⟨hne, _, hent⟩ := wfFM_parts hwf
  unfold parse
  rw [matchFMP_create_markdown fm body hent hne hbody]
  simp only [loadYaml_dump fm hent hne]

/-- Unpack `bodySafe`. -/
theorem bodySafe_parts (body : List Char) (h : bodySafe body = true) :
    body = [] ∨ ∃ c t, body = c :: t ∧ pySpace c = false ∧ c ≠ '#' := by
  cases body with
  | nil => exact Or.inl rfl
  | cons c t =>
    simp only [bodySafe, Bool.and_eq_true, Bool.not_eq_true',
      decide_eq_true_eq] at h
    exact Or.inr ⟨c, t, rfl, h.1, h.2⟩

/-- Unpack `bodyHeadOk`. -/
theorem bodyHeadOk_parts (body : List Char) (h : bodyHeadOk body = true) :
    body = [] ∨ ∃ c t, body = c :: t ∧ pySpace c = false := by
  cases body with
  | nil => exact Or.inl rfl
  | cons c t =>
    simp only [bodyHeadOk, Bool.not_eq_true'] at h
    exact Or.inr ⟨c, t, rfl, h⟩

/-- On a safe body the H1 extraction finds nothing and the H1 removal is
the identity. -/
theorem h1_noop (body : List Char) (h : bodySafe body = true) :
    extract_h1_title body = none ∧ remove_h1 body = body := by
  rcases bodySafe_parts body h with rfl | ⟨c, t, rfl, hns, hnh⟩
  · exact ⟨rfl, rfl⟩
  · have hdw : List.dropWhile pySpace (c :: t) = c :: t := by
      rw [List.dropWhile_cons, if_neg (by simp [hns])]
    constructor
    · unfold extract_h1_title
      rw [hdw]
      split
      next r2 heq =>
        injection heq with h1 _
        exact absurd h1 hnh
      next => rfl
    · unfold remove_h1
      rw [hdw]
      split
      next r2 heq =>
        injection heq with h1 _
        exact absurd h1 hnh
      next => rfl

/-- Reduce `extract_h1_title` on a text starting with `#`. -/
theorem extract_h1_title_hash (r2 : List Char) :
    extract_h1_title ('#' :: r2) =
      match h1Go r2 (wsRunLen r2) with
      | some rest => some (pyStrip (List.takeWhile notNl rest))
      | none => none := by
  unfold extract_h1_title
  rw [List.dropWhile_cons, if_neg (by decide)]
  rfl

/-- Reduce `remove_h1` on a text starting with `#`. -/
theorem remove_h1_hash (r2 : List Char) :
    remove_h1 ('#' :: r2) =
      match h1Go r2 (wsRunLen r2) with
      | some rest => (rest.dropWhile notNl).dropWhile isNl
      | none => '#' :: r2 := by
  unfold remove_h1
  rw [List.dropWhile_cons, if_neg (by decide)]
  rfl

/-- Unpack `h1TitleOk`. -/
theorem h1TitleOk_parts (title : List Char) (h : h1TitleOk title = true) :
    ∃ c0 t0, title = c0 :: t0 ∧ pySpace c0 = false ∧
      (∀ x ∈ title, notNl x = true) ∧
      List.dropWhile pySpace title.reverse = title.reverse := by
  simp only [h1TitleOk, Bool.and_eq_true] at h
  obtain ⟨⟨hh, hall⟩, hrev⟩ := h
  cases htitle : title with
  | nil => rw [htitle] at hh; exact absurd hh (by decide)
  | cons c0 t0 =>
    rw [htitle] at hh hall hrev
    simp only [headNotSpace, Bool.not_eq_true'] at hh
    refine ⟨c0, t0, rfl, hh, ?_, ?_⟩
    · intro x hx
      exact (List.all_eq_true.mp hall) x hx
    · cases hrt : (c0 :: t0).reverse with
      | nil => simp at hrt
      | cons d s =>
        rw [hrt] at hrev
        simp only [headNotSpace, Bool.not_eq_true'] at hrev
        rw [List.dropWhile_cons, if_neg (by simp [hrev])]

/-- The H1 shape: extraction returns the heading text of a body
`# <title>\n<rest>`. -/
theorem extract_h1_shape (title rest : List Char)
    (ht : h1TitleOk title = true) :
    extract_h1_title ('#' :: ' ' :: (title ++ '\n' :: rest)) = some title := by
  obtain ⟨c0, t0, rfl, hc0, hnl, hrev⟩ := h1TitleOk_parts title ht
  rw [extract_h1_title_hash]
  have hrun : wsRunLen (' ' :: (c0 :: t0 ++ '\n' :: rest)) = 1 := by
    unfold wsRunLen
    rw [List.takeWhile_cons, if_pos (by decide), List.cons_append,
      List.takeWhile_cons, if_neg (by simp [hc0])]
    rfl
  rw [hrun]
  have hne : c0 ≠ '\n' := by
    intro e
    rw [e] at hc0
    exact absurd hc0 (by decide)
  have hgo : h1Go (' ' :: (c0 :: t0 ++ '\n' :: rest)) 1 =
      some (c0 :: (t0 ++ '\n' :: rest)) := by
    show h1Go (' ' :: (c0 :: t0 ++ '\n' :: rest)) (0 + 1) = _
    unfold h1Go
    simp only [List.drop_succ_cons, List.drop_zero, List.cons_append]
    rw [if_pos hne]
  rw [hgo]
  show some (pyStrip (List.takeWhile notNl (c0 :: (t0 ++ '\n' :: rest)))) =
    some (c0 :: t0)
  have htake : List.takeWhile notNl (c0 :: (t0 ++ '\n' :: rest)) =
      c0 :: t0 := by
    have : (c0 :: t0) ++ '\n' :: rest = c0 :: (t0 ++ '\n' :: rest) := by simp
    rw [← this, takeWhile_append_all _ _ hnl, List.takeWhile_cons,
      if_neg (by decide)]
    simp
  rw [htake]
  have hstrip : pyStrip (c0 :: t0) = c0 :: t0 := by
    unfold pyStrip
    rw [List.dropWhile_cons, if_neg (by simp [hc0]), hrev,
      List.reverse_reverse]
  rw [hstrip]

/-- The H1 shape: removal drops the heading line (and just it) from a body
`# <title>\n<rest>` whose rest does not start with another newline. -/
theorem remove_h1_shape (title rest : List Char)
    (ht : h1TitleOk title = true) (hr : noLeadNl rest = true) :
    remove_h1 ('#' :: ' ' :: (title ++ '\n' :: rest)) = rest := by
  obtain ⟨c0, t0, rfl, hc0, hnl, _⟩ := h1TitleOk_parts title ht
  rw [remove_h1_hash]
  have hrun : wsRunLen (' ' :: (c0 :: t0 ++ '\n' :: rest)) = 1 := by
    unfold wsRunLen
    rw [List.takeWhile_cons, if_pos (by decide), List.cons_append,
      List.takeWhile_cons, if_neg (by simp [hc0])]
    rfl
  rw [hrun]
  have hne : c0 ≠ '\n' := by
    intro e
    rw [e] at hc0
    exact absurd hc0 (by decide)
  have hgo : h1Go (' ' :: (c0 :: t0 ++ '\n' :: rest)) 1 =
      some (c0 :: (t0 ++ '\n' :: rest)) := by
    show h1Go (' ' :: (c0 :: t0 ++ '\n' :: rest)) (0 + 1) = _
    unfold h1Go
    simp only [List.drop_succ_cons, List.drop_zero, List.cons_append]
    rw [if_pos hne]
  rw [hgo]
  show List.dropWhile isNl
      (List.dropWhile notNl (c0 :: (t0 ++ '\n' :: rest))) = rest
  have hdropa : List.dropWhile notNl (c0 :: (t0 ++ '\n' :: rest)) =
      '\n' :: rest := by
    have : (c0 :: t0) ++ '\n' :: rest = c0 :: (t0 ++ '\n' :: rest) := by simp
    rw [← this, dropWhile_append_all _ _ hnl, List.dropWhile_cons,
      if_neg (by decide)]
  rw [hdropa]
  rw [List.dropWhile_cons, if_pos (by decide)]
  cases rest with
  | nil => rfl
  | cons c t =>
    simp only [noLeadNl, decide_eq_true_eq] at hr
    rw [List.dropWhile_cons, if_neg (by simp [isNl, hr])]

/-- Counterexample for C1: with valid front matter and the body
`"# Hi\nrest"`, parsing the composed document does not return the body
unchanged with an absent extracted title; it extracts `"Hi"` and removes
the heading line. -/
theorem frontmatter_roundtrip_cex :
    (validate (some fm0ex)).1 = true ∧
    parse (create_markdown fm0ex (s2l "# Hi\nrest")) ≠
      some (some fm0ex, s2l "# Hi\nrest", none) ∧
    parse (create_markdown fm0ex (s2l "# Hi\nrest")) =
      some (some fm0ex, s2l "rest", some (s2l "Hi")) :=
  ⟨by decide, by decide, by decide⟩

/-- C1 (amended): for every well-formed front matter (plain-style scalar
values) satisfying the required-field invariant, and every body that is
empty or starts with a character that is neither whitespace nor `#`,
`parse(compose(serialize(fm), body))` returns exactly that front matter,
the body unchanged, and an absent extracted title. -/
theorem frontmatter_roundtrip (fm : FMap) (body : List Char)
    (hwf : wfFM fm = true) (hval : (validate (some fm)).1 = true)
    (hbody : bodySafe body = true) :
    parse (create_markdown fm body) = some (some fm, body, none) := by
  have hb2 : body = [] ∨ ∃ c t, body = c :: t ∧ pySpace c = false := by
    rcases bodySafe_parts body hbody with h | ⟨c, t, h1, h2, _⟩
    · exact Or.inl h
    · exact Or.inr ⟨c, t, h1, h2⟩
  rw [parse_create_markdown fm body hwf hb2]
  obtain ⟨he, hr⟩ := h1_noop body hbody
  rw [he, hr]

/-- Witness for C1's amended round trip on concrete front matter and
body. -/
theorem frontmatter_roundtrip_witness :
    wfFM fm0ex = true ∧ (validate (some fm0ex)).1 = true ∧
    bodySafe (s2l "body text") = true ∧
    parse (create_markdown fm0ex (s2l "body text")) =
      some (some fm0ex, s2l "body text", none) :=
  ⟨by decide, by decide, by decide,
    frontmatter_roundtrip fm0ex (s2l "body text") (by decide) (by decide)
      (by decide)⟩

/-- C10: even when a document begins with a valid front-matter block, a
body whose first content is an H1 heading line has that heading's text
returned as the extracted title and the heading line removed from the
returned body. -/
theorem h1_extracted_with_frontmatter (fm : FMap) (title rest : List Char)
    (hwf : wfFM fm = true) (ht : h1TitleOk title = true)
    (hr : noLeadNl rest = true) :
    parse (create_markdown fm ('#' :: ' ' :: (title ++ '\n' :: rest))) =
      some (some fm, rest, some title) := by
  rw [parse_create_markdown fm _ hwf
    (Or.inr ⟨'#', ' ' :: (title ++ '\n' :: rest), rfl, by decide⟩)]
  rw [extract_h1_shape title rest ht, remove_h1_shape title rest ht hr]

/-- Witness for C10: a concrete document with front matter and a leading
H1 heading. -/
theorem h1_extracted_with_frontmatter_witness :
    wfFM fm0ex = true ∧ h1TitleOk (s2l "Hi") = true ∧
    noLeadNl (s2l "rest") = true ∧
    parse (create_markdown fm0ex
      ('#' :: ' ' :: (s2l "Hi" ++ '\n' :: s2l "rest"))) =
      some (some fm0ex, s2l "rest", some (s2l "Hi")) :=
  ⟨by decide, by decide, by decide,
    h1_extracted_with_frontmatter fm0ex (s2l "Hi") (s2l "rest") (by decide)
      (by decide) (by decide)⟩

/-- The processing loop is exactly its plan: the body is rewritten by the
planned substitutions, the bundle receives the planned writes, and the
accumulated rename list is extended by the planned records. -/
theorem processLoop_eq (dec : List Nat → Option PILImage) (maxW : Nat)
    (dd pd : Dir) (ip : Bool) (slug : List Char) :
    ∀ (refs : List (List Char × List Char)) (ctr : Nat) (body : List Char)
      (bundle : Dir) (rn : List Rename),
      processLoop dec maxW dd pd ip slug refs ctr body bundle rn =
        (update_image_refs body
          ((planRefs dec maxW dd pd ip slug refs ctr).map Prod.fst),
         planBundle dec maxW bundle
           (planRefs dec maxW dd pd ip slug refs ctr),
         rn ++ (planRefs dec maxW dd pd ip slug refs ctr).map Prod.fst) := by
  intro refs
  induction refs with
  | nil =>
    intro ctr body bundle rn
    simp [processLoop, planRefs, update_image_refs, planBundle]
  | cons ap rest ih =>
    obtain ⟨alt, p⟩ := ap
    intro ctr body bundle rn
    by_cases hs : skipRef p = true
    · simp only [processLoop, planRefs, if_pos hs]
      exact ih ctr body bundle rn
    · cases hf : find_image dd pd p ip with
      | none =>
        simp only [processLoop, planRefs, if_neg hs, hf]
        exact ih ctr body bundle rn
      | some f =>
        simp only [processLoop, planRefs, if_neg hs, hf]
        rw [ih (ctr + 1) _ _ _]
        simp [update_image_refs, planBundle, List.append_assoc]

/-- `process_images` in terms of its plan. -/
theorem process_images_eq (dec : List Nat → Option PILImage) (maxW : Nat)
    (dd pd : Dir) (ip : Bool) (slug body : List Char) (bundle : Dir) :
    process_images dec maxW dd pd ip slug body bundle =
      (update_image_refs body
        ((planRefs dec maxW dd pd ip slug (findRefs body) 1).map Prod.fst),
       planBundle dec maxW bundle
         (planRefs dec maxW dd pd ip slug (findRefs body) 1),
       (planRefs dec maxW dd pd ip slug (findRefs body) 1).map Prod.fst) := by
  unfold process_images
  rw [processLoop_eq]
  simp

/-- No planned record has a skippable path. -/
theorem planRefs_noskip (dec : List Nat → Option PILImage) (maxW : Nat)
    (dd pd : Dir) (ip : Bool) (slug : List Char) :
    ∀ (refs : List (List Char × List Char)) (ctr : Nat),
      ∀ pr ∈ planRefs dec maxW dd pd ip slug refs ctr,
        skipRef pr.1.old_path = false := by
  intro refs
  induction refs with
  | nil => intro ctr pr hpr; cases hpr
  | cons ap rest ih =>
    obtain ⟨alt, p⟩ := ap
    intro ctr pr hpr
    by_cases hs : skipRef p = true
    · rw [planRefs, if_pos hs] at hpr
      exact ih ctr pr hpr
    · rw [planRefs, if_neg hs] at hpr
      cases hf : find_image dd pd p ip with
      | none =>
        rw [hf] at hpr
        exact ih ctr pr hpr
      | some f =>
        rw [hf] at hpr
        rcases List.mem_cons.mp hpr with h1 | h2
        · subst h1
          simpa using Bool.not_eq_true _ ▸ (Bool.eq_false_iff.mpr hs)
        · exact ih (ctr + 1) pr h2

/-- A reference list that is entirely skippable yields an empty plan. -/
theorem planRefs_allskip (dec : List Nat → Option PILImage) (maxW : Nat)
    (dd pd : Dir) (ip : Bool) (slug : List Char) :
    ∀ (refs : List (List Char × List Char)) (ctr : Nat),
      (∀ ap ∈ refs, skipRef ap.2 = true) →
      planRefs dec maxW dd pd ip slug refs ctr = [] := by
  intro refs
  induction refs with
  | nil => intro ctr _; rfl
  | cons ap rest ih =>
    obtain ⟨alt, p⟩ := ap
    intro ctr hall
    have hs : skipRef p = true := hall (alt, p) (List.mem_cons_self _ _)
    rw [planRefs, if_pos hs]
    exact ih ctr fun x hx => hall x (List.mem_cons_of_mem _ hx)

/-- Counterexample for C5: in `bodyQ` the second reference's path starts
with `http://` and is skipped, yet its markup occurrence does not survive
processing, because the first (local) reference's markup occurs inside it
and is textually substituted. -/
theorem skip_refs_cex :
    (s2l "A", s2l "http://e![c](q.png") ∈ findRefs bodyQ ∧
    skipRef (s2l "http://e![c](q.png") = true ∧
    occursIn bodyQ markupQ = true ∧
    occursIn
      (process_images decQ 1920 dirQ [] true (s2l "today_hello") bodyQ []).1
      markupQ = false :=
  ⟨by decide, by decide, by decide, by decide⟩

/-- C5 (amended): processing never resolves a skippable reference and
assigns it no new name — every rename record carries a non-skippable
path — and the body is changed only by substituting the recorded
references' markup; in particular, a body all of whose references are
skippable is returned completely unchanged, with no renames and no bundle
writes. -/
theorem skip_refs_spec (dec : List Nat → Option PILImage) (maxW : Nat)
    (dd pd : Dir) (ip : Bool) (slug body : List Char) (bundle : Dir) :
    (∀ r ∈ (process_images dec maxW dd pd ip slug body bundle).2.2,
      skipRef r.old_path = false) ∧
    (process_images dec maxW dd pd ip slug body bundle).1 =
      update_image_refs body
        (process_images dec maxW dd pd ip slug body bundle).2.2 ∧
    ((∀ ap ∈ findRefs body, skipRef ap.2 = true) →
      process_images dec maxW dd pd ip slug body bundle =
        (body, bundle, [])) := by
  rw [process_images_eq]
  refine ⟨?_, ?_, ?_⟩
  · intro r hr
    simp only [List.mem_map] at hr
    obtain ⟨pr, hpr, rfl⟩ := hr
    exact planRefs_noskip dec maxW dd pd ip slug (findRefs body) 1 pr hpr
  · rfl
  · intro hall
    rw [planRefs_allskip dec maxW dd pd ip slug (findRefs body) 1 hall]
    simp [update_image_refs, planBundle]

/-- Witness for C5: a body with one web reference and one
already-published reference is returned unchanged. -/
theorem skip_refs_spec_witness :
    (∀ ap ∈ findRefs (s2l "![a](http://x.png) ![b](/images/blog/y.png)"),
      skipRef ap.2 = true) ∧
    process_images decQ 1920 dirQ [] true (s2l "today_hello")
      (s2l "![a](http://x.png) ![b](/images/blog/y.png)") [] =
      (s2l "![a](http://x.png) ![b](/images/blog/y.png)", [], []) :=
  ⟨by decide,
    (skip_refs_spec decQ 1920 dirQ [] true (s2l "today_hello")
      (s2l "![a](http://x.png) ![b](/images/blog/y.png)") []).2.2
      (by decide)⟩

/-- `dropWhile` never lengthens a list. -/
theorem dropWhile_length_le {α : Type} (p : α → Bool) (l : List α) :
    (l.dropWhile p).length ≤ l.length := by
  induction l with
  | nil => exact Nat.le_refl _
  | cons c t ih =>
    rw [List.dropWhile_cons]
    by_cases hc : p c = true
    · rw [if_pos hc]
      exact Nat.le_trans ih (Nat.le_succ _)
    · rw [if_neg hc]

/-- Members of a `takeWhile` are members of the list. -/
theorem mem_takeWhile_mem {α : Type} (p : α → Bool) {l : List α} {a : α}
    (h : a ∈ l.takeWhile p) : a ∈ l := by
  induction l with
  | nil => cases h
  | cons c t ih =>
    rw [List.takeWhile_cons] at h
    by_cases hc : p c = true
    · rw [if_pos hc] at h
      rcases List.mem_cons.mp h with h1 | h2
      · exact h1 ▸ List.mem_cons_self c t
      · exact List.mem_cons_of_mem c (ih h2)
    · rw [if_neg hc] at h
      cases h

/-- A successful match consumes at least the markup's characters. -/
theorem refAtBody_length (r a p rem : List Char)
    (h : refAtBody r = some (a, p, rem)) : rem.length ≤ r.length := by
  simp only [refAtBody] at h
  cases hdw : List.dropWhile notRBracket r with
  | nil => rw [hdw] at h; cases h
  | cons d1 tl1 =>
    rw [hdw] at h
    have hdwlen : tl1.length + 1 ≤ r.length := by
      have := dropWhile_length_le notRBracket r
      rw [hdw] at this
      simpa using this
    cases tl1 with
    | nil => cases h
    | cons d2 r2 =>
      dsimp only at h
      have hr2 : r2.length + 2 ≤ r.length := by
        simp only [List.length_cons] at hdwlen
        omega
      by_cases h12 : d1 = ']' ∧ d2 = '('
      · rw [if_pos h12] at h
        by_cases hpr : r2.takeWhile pathChar = []
        · rw [if_pos hpr] at h; cases h
        · rw [if_neg hpr] at h
          cases he : r2.dropWhile pathChar with
          | nil => rw [he] at h; cases h
          | cons e1 t2 =>
            rw [he] at h
            dsimp only at h
            have ht2 : t2.length + 1 ≤ r2.length := by
              have := dropWhile_length_le pathChar r2
              rw [he] at this
              simpa using this
            by_cases he1 : e1 = ')'
            · rw [if_pos he1] at h
              cases h
              omega
            · rw [if_neg he1] at h
              by_cases hsp : pySpace e1 = true
              · rw [if_pos hsp] at h
                cases hq : (e1 :: t2).dropWhile pySpace with
                | nil => rw [hq] at h; cases h
                | cons f1 q =>
                  rw [hq] at h
                  dsimp only at h
                  have hqlen : q.length + 1 ≤ t2.length + 1 := by
                    have := dropWhile_length_le pySpace (e1 :: t2)
                    rw [hq] at this
                    simpa using this
                  by_cases hf1 : f1 = '"'
                  · rw [if_pos hf1] at h
                    cases hg : q.dropWhile notQuote with
                    | nil => rw [hg] at h; cases h
                    | cons g1 gtl =>
                      cases gtl with
                      | nil => rw [hg] at h; cases h
                      | cons g2 rem2 =>
                        rw [hg] at h
                        dsimp only at h
                        have hglen : rem2.length + 2 ≤ q.length := by
                          have := dropWhile_length_le notQuote q
                          rw [hg] at this
                          simp only [List.length_cons] at this
                          omega
                        by_cases hg12 : g1 = '"' ∧ g2 = ')'
                        · rw [if_pos hg12] at h
                          cases h
                          omega
                        · rw [if_neg hg12] at h; cases h
                  · rw [if_neg hf1] at h; cases h
              · rw [if_neg hsp] at h; cases h
      · rw [if_neg h12] at h; cases h

/-- A successful match strictly shrinks the text. -/
theorem refAt_length (s a p rem : List Char)
    (h : refAt s = some (a, p, rem)) : rem.length < s.length := by
  cases s with
  | nil => cases h
  | cons c1 s1 =>
    cases s1 with
    | nil => cases h
    | cons c2 r =>
      simp only [refAt] at h
      by_cases h12 : c1 = '!' ∧ c2 = '['
      · rw [if_pos h12] at h
        have := refAtBody_length r a p rem h
        simp only [List.length_cons]
        omega
      · rw [if_neg h12] at h; cases h

/-- Fuel irrelevance for the reference scanner. -/
theorem findRefsF_fuel (n : Nat) :
    ∀ (m : Nat) (s : List Char), s.length ≤ n → s.length ≤ m →
      findRefsF n s = findRefsF m s := by
  induction n with
  | zero =>
    intro m s h1 _
    have : s = [] := List.eq_nil_of_length_eq_zero (Nat.le_zero.mp h1)
    subst this
    cases m <;> rfl
  | succ n ih =>
    intro m s h1 h2
    cases s with
    | nil => cases m <;> rfl
    | cons c t =>
      cases m with
      | zero => simp at h2
      | succ m =>
        simp only [List.length_cons, Nat.succ_le_succ_iff] at h1 h2
        simp only [findRefsF]
        cases hra : refAt (c :: t) with
        | none => exact ih m t h1 h2
        | some r =>
          obtain ⟨a, ⟨p, rem⟩⟩ := r
          have hlt := refAt_length (c :: t) a p rem hra
          simp only [List.length_cons] at hlt
          dsimp only
          rw [ih m rem (by omega) (by omega)]

/-- A position not starting with `!` never begins a match. -/
theorem refAt_nonbang (c : Char) (t : List Char) (h : c ≠ '!') :
    refAt (c :: t) = none := by
  cases t with
  | nil => rfl
  | cons c2 r =>
    simp only [refAt]
    rw [if_neg (fun hand => h hand.1)]

/-- The scanner passes over a `!`-free block. -/
theorem findRefs_append_nobang (P Q : List Char)
    (hP : ∀ c ∈ P, c ≠ '!') : findRefs (P ++ Q) = findRefs Q := by
  suffices hgen : ∀ (P : List Char) (n : Nat), (∀ c ∈ P, c ≠ '!') →
      (P ++ Q).length ≤ n → findRefsF n (P ++ Q) = findRefs Q by
    exact hgen P (P ++ Q).length hP (Nat.le_refl _)
  intro P
  induction P with
  | nil =>
    intro n _ hlen
    simp only [List.nil_append] at hlen ⊢
    exact findRefsF_fuel n Q.length Q hlen (Nat.le_refl _)
  | cons c P' ih =>
    intro n hP' hlen
    cases n with
    | zero => simp at hlen
    | succ n =>
      simp only [List.cons_append, List.length_cons,
        Nat.succ_le_succ_iff] at hlen ⊢
      simp only [findRefsF,
        refAt_nonbang c _ (hP' c (List.mem_cons_self c P'))]
      exact ih n (fun d hd => hP' d (List.mem_cons_of_mem c hd)) hlen

/-- The scanner finds nothing in a `!`-free text. -/
theorem findRefs_nobang (B : List Char) (hB : ∀ c ∈ B, c ≠ '!') :
    findRefs B = [] := by
  have := findRefs_append_nobang B [] hB
  simpa using this

/-- Normal form of a markup occurrence followed by the rest of the
text. -/
theorem mkRef_append (alt p rest : List Char) :
    mkRef alt p ++ rest =
      '!' :: '[' :: (alt ++ ']' :: '(' :: (p ++ ')' :: rest)) := by
  simp [mkRef]

/-- The regex matches a well-formed markup occurrence exactly. -/
theorem refAt_mkRef (alt p rest : List Char)
    (halt : ∀ c ∈ alt, notRBracket c = true)
    (hpne : p ≠ []) (hp : ∀ c ∈ p, pathChar c = true) :
    refAt ('!' :: '[' :: (alt ++ ']' :: '(' :: (p ++ ')' :: rest))) =
      some (alt, p, rest) := by
  simp only [refAt]
  rw [if_pos (by simp)]
  simp only [refAtBody]
  rw [takeWhile_append_all alt _ halt, dropWhile_append_all alt _ halt]
  simp only [List.takeWhile_cons, List.dropWhile_cons,
    show notRBracket ']' = false from by decide, Bool.false_eq_true,
    if_false, List.append_nil]
  rw [if_pos (by simp)]
  rw [takeWhile_append_all p _ hp, dropWhile_append_all p _ hp]
  simp only [List.takeWhile_cons, List.dropWhile_cons,
    show pathChar ')' = false from by decide, Bool.false_eq_true, if_false,
    List.append_nil]
  rw [if_neg (by simp [hpne]), if_pos (by simp)]

/-- Scanning a markup occurrence yields its reference and continues after
it. -/
theorem findRefs_cons_mkRef (alt p rest : List Char)
    (halt : ∀ c ∈ alt, notRBracket c = true)
    (hpne : p ≠ []) (hp : ∀ c ∈ p, pathChar c = true) :
    findRefs (mkRef alt p ++ rest) = (alt, p) :: findRefs rest := by
  rw [mkRef_append]
  show findRefsF ('!' :: '[' ::
    (alt ++ ']' :: '(' :: (p ++ ')' :: rest))).length _ = _
  simp only [List.length_cons]
  simp only [findRefsF, refAt_mkRef alt p rest halt hpne hp]
  congr 1
  apply findRefsF_fuel
  · simp only [List.length_append, List.length_cons]
    omega
  · exact Nat.le_refl _

/-- Fuel irrelevance for textual substitution. -/
theorem replaceAllF_fuel (n : Nat) :
    ∀ (m : Nat) (s old new : List Char), s.length ≤ n → s.length ≤ m →
      replaceAllF n s old new = replaceAllF m s old new := by
  induction n with
  | zero =>
    intro m s old new h1 _
    have : s = [] := List.eq_nil_of_length_eq_zero (Nat.le_zero.mp h1)
    subst this
    cases m <;> rfl
  | succ n ih =>
    intro m s old new h1 h2
    cases s with
    | nil => cases m <;> rfl
    | cons c t =>
      cases m with
      | zero => simp at h2
      | succ m =>
        simp only [List.length_cons, Nat.succ_le_succ_iff] at h1 h2
        simp only [replaceAllF]
        by_cases hc : old ≠ [] ∧ old.isPrefixOf (c :: t) = true
        · rw [if_pos hc, if_pos hc]
          have hdl : ((c :: t).drop old.length).length ≤ t.length := by
            rw [List.length_drop]
            obtain ⟨o, o', rfl⟩ : ∃ a b, old = a :: b := by
              cases old with
              | nil => cases hc.1 rfl
              | cons a b => exact ⟨a, b, rfl⟩
            simp only [List.length_cons]
            omega
          rw [ih m _ old new (Nat.le_trans hdl h1) (Nat.le_trans hdl h2)]
        · rw [if_neg hc, if_neg hc, ih m t old new h1 h2]

/-- A list is a prefix of itself extended. -/
theorem isPrefixOf_append_self {α : Type} [BEq α] [LawfulBEq α]
    (l r : List α) : l.isPrefixOf (l ++ r) = true := by
  rw [List.isPrefixOf_iff_prefix]
  exact List.prefix_append l r

/-- Substitution passes over a `!`-free block when the pattern starts
with `!`. -/
theorem replaceAll_nobang (P s old new : List Char)
    (hP : ∀ c ∈ P, c ≠ '!') (hold : ∃ o, old = '!' :: o) :
    replaceAll (P ++ s) old new = P ++ replaceAll s old new := by
  suffices hgen : ∀ (P : List Char) (n : Nat), (∀ c ∈ P, c ≠ '!') →
      (P ++ s).length ≤ n →
      replaceAllF n (P ++ s) old new = P ++ replaceAll s old new by
    exact hgen P (P ++ s).length hP (Nat.le_refl _)
  intro P
  induction P with
  | nil =>
    intro n _ hlen
    simp only [List.nil_append] at hlen ⊢
    exact replaceAllF_fuel n s.length s old new hlen (Nat.le_refl _)
  | cons c P' ih =>
    intro n hP' hlen
    cases n with
    | zero => simp at hlen
    | succ n =>
      simp only [List.cons_append, List.length_cons,
        Nat.succ_le_succ_iff] at hlen ⊢
      obtain ⟨o, rfl⟩ := hold
      have hc : c ≠ '!' := hP' c (List.mem_cons_self c P')
      have hbc : (('!' : Char) == c) = false :=
        beq_eq_false_iff_ne.mpr (fun e => hc e.symm)
      simp only [replaceAllF]
      rw [if_neg (by simp [List.isPrefixOf, hbc])]
      rw [ih n (fun d hd => hP' d (List.mem_cons_of_mem c hd)) hlen]

/-- A `!`-free text is untouched by a `!`-headed substitution. -/
theorem replaceAll_nobang_only (B old new : List Char)
    (hB : ∀ c ∈ B, c ≠ '!') (hold : ∃ o, old = '!' :: o) :
    replaceAll B old new = B := by
  have h := replaceAll_nobang B [] old new hB hold
  rw [List.append_nil] at h
  have h2 : replaceAll [] old new = [] := rfl
  rw [h2, List.append_nil] at h
  exact h

/-- Substitution fires exactly at an occurrence of the pattern. -/
theorem replaceAll_hit (X old new : List Char) (hold : old ≠ []) :
    replaceAll (old ++ X) old new = new ++ replaceAll X old new := by
  obtain ⟨o1, o', rfl⟩ : ∃ a b, old = a :: b := by
    cases old with
    | nil => cases hold rfl
    | cons a b => exact ⟨a, b, rfl⟩
  show replaceAllF ((o1 :: o') ++ X).length ((o1 :: o') ++ X) _ _ = _
  have hsh : (o1 :: o') ++ X = o1 :: (o' ++ X) := by simp
  rw [hsh]
  simp only [List.length_cons]
  simp only [replaceAllF]
  rw [if_pos ⟨by simp, by rw [← hsh]; exact isPrefixOf_append_self _ _⟩]
  have hdrop : (o1 :: (o' ++ X)).drop (o1 :: o').length = X := by
    simp only [List.length_cons, List.drop_succ_cons]
    exact List.drop_left o' X
  rw [hdrop]
  congr 1
  apply replaceAllF_fuel
  · simp only [List.length_append]
    omega
  · exact Nat.le_refl _

/-- Substitution passes over an occurrence of a different markup: the
pattern does not match at its head, and its tail is `!`-free. -/
theorem replaceAll_block (c : Char) (B' X old new : List Char)
    (hB' : ∀ d ∈ B', d ≠ '!') (hold : ∃ o, old = '!' :: o)
    (hpre : old.isPrefixOf (c :: (B' ++ X)) = false) :
    replaceAll ((c :: B') ++ X) old new =
      (c :: B') ++ replaceAll X old new := by
  simp only [List.cons_append]
  show replaceAllF (c :: (B' ++ X)).length _ _ _ = _
  simp only [List.length_cons]
  simp only [replaceAllF]
  rw [if_neg (by rw [hpre]; simp)]
  have : replaceAllF (B' ++ X).length (B' ++ X) old new =
      replaceAll (B' ++ X) old new := rfl
  rw [this, replaceAll_nobang B' X old new hB' hold]

/-- Stripping a common prefix from a prefix test. -/
theorem isPrefixOf_append_same {α : Type} [BEq α] [LawfulBEq α]
    (A u v : List α) : (A ++ u).isPrefixOf (A ++ v) = u.isPrefixOf v := by
  induction A with
  | nil => rfl
  | cons a A' ih => simp [List.isPrefixOf, ih]

/-- Comparing `path)` against `path')·rest` decides path equality when
neither path contains a closing parenthesis. -/
theorem pathRPar_prefix (p : List Char) :
    ∀ (q X : List Char), (∀ c ∈ p, c ≠ ')') → (∀ c ∈ q, c ≠ ')') →
      (p ++ [')']).isPrefixOf (q ++ ')' :: X) = decide (p = q) := by
  induction p with
  | nil =>
    intro q X _ hq
    cases q with
    | nil => simp [List.isPrefixOf]
    | cons b q' =>
      have hb : ((')' : Char) == b) = false :=
        beq_eq_false_iff_ne.mpr
          (fun e => hq b (List.mem_cons_self b q') e.symm)
      simp [List.isPrefixOf, hb]
  | cons a p' ih =>
    intro q X hp hq
    cases q with
    | nil =>
      have ha : ((a : Char) == ')') = false :=
        beq_eq_false_iff_ne.mpr (hp a (List.mem_cons_self a p'))
      simp [List.isPrefixOf, ha]
    | cons b q' =>
      simp only [List.cons_append, List.isPrefixOf, List.append_eq]
      rw [ih q' X (fun d hd => hp d (List.mem_cons_of_mem a hd))
        (fun d hd => hq d (List.mem_cons_of_mem b hd))]
      by_cases hab : a = b
      · subst hab
        simp
      · have : ((a : Char) == b) = false := beq_eq_false_iff_ne.mpr hab
        simp [this, hab]

/-- A markup occurrence for the same alt text but a different path never
begins at another markup's start. -/
theorem mkRef_prefix_false (alt p nn X : List Char)
    (hp : ∀ c ∈ p, c ≠ ')') (hnn : ∀ c ∈ nn, c ≠ ')') (hne : p ≠ nn) :
    (mkRef alt p).isPrefixOf (mkRef alt nn ++ X) = false := by
  have h1 : mkRef alt p =
      ('!' :: '[' :: alt ++ [']', '(']) ++ (p ++ [')']) := by
    simp [mkRef]
  have h2 : mkRef alt nn ++ X =
      ('!' :: '[' :: alt ++ [']', '(']) ++ (nn ++ ')' :: X) := by
    simp [mkRef]
  rw [h1, h2, isPrefixOf_append_same, pathRPar_prefix p nn X hp hnn]
  simp [hne]

/-- Unpack `segOk`. -/
theorem segOk_chars {B : List Char} (h : segOk B = true) :
    ∀ c ∈ B, c ≠ '!' := by
  intro c hc
  exact of_decide_eq_true (List.all_eq_true.mp h c hc)

/-- Unpack `altOk`. -/
theorem altOk_chars {a : List Char} (h : altOk a = true) :
    ∀ c ∈ a, notRBracket c = true ∧ c ≠ '!' := by
  intro c hc
  have := List.all_eq_true.mp h c hc
  simp only [Bool.and_eq_true, decide_eq_true_eq] at this
  exact this

/-- Unpack `pathOk`. -/
theorem pathOk_chars {p : List Char} (h : pathOk p = true) :
    p ≠ [] ∧ ∀ c ∈ p, pathChar c = true ∧ c ≠ '!' := by
  simp only [pathOk, Bool.and_eq_true, List.all_eq_true] at h
  refine ⟨by
    cases p with
    | nil => exact absurd h.1 (by decide)
    | cons c t => simp, ?_⟩
  intro c hc
  have := h.2 c hc
  simp only [Bool.and_eq_true, decide_eq_true_eq] at this
  exact this

/-- A regex path character is neither `)` nor whitespace. -/
theorem pathChar_facts {c : Char} (h : pathChar c = true) :
    c ≠ ')' ∧ pySpace c = false := by
  simp only [pathChar, Bool.not_eq_true', Bool.or_eq_false_iff,
    decide_eq_false_iff_not] at h
  exact h

/-- `str.strip()` is the identity on whitespace-free text. -/
theorem pyStrip_eq_self_of_nospace {p : List Char}
    (hall : ∀ c ∈ p, pySpace c = false) : pyStrip p = p := by
  cases p with
  | nil => rfl
  | cons c t =>
    unfold pyStrip
    rw [List.dropWhile_cons,
      if_neg (by simp [hall c (List.mem_cons_self c t)])]
    cases hrev : (c :: t).reverse with
    | nil => simp at hrev
    | cons d s =>
      have hd : d ∈ (c :: t).reverse := by rw [hrev]; exact List.mem_cons_self d s
      have hd2 : pySpace d = false := hall d (List.mem_reverse.mp hd)
      have h7 : (d :: s).reverse = c :: t := by
        conv_lhs => rw [← hrev]
        rw [List.reverse_reverse]
      rw [List.dropWhile_cons, if_neg (by simp [hd2])]
      exact h7

/-- Characters of a suffix come from the path (or are the dot). -/
theorem pySuffix_mem (p : List Char) (c : Char) (hc : c ∈ pySuffix p) :
    c = '.' ∨ c ∈ p := by
  simp only [pySuffix] at hc
  split at hc
  · rcases List.mem_cons.mp hc with h1 | h2
    · exact Or.inl h1
    · refine Or.inr ?_
      have h3 : c ∈ (baseName p).reverse.takeWhile notDot :=
        List.mem_reverse.mp h2
      have h4 : c ∈ (baseName p).reverse := mem_takeWhile_mem notDot h3
      have h5 : c ∈ baseName p := List.mem_reverse.mp h4
      have h6 : c ∈ p.reverse.takeWhile notSlash := by
        unfold baseName at h5
        exact List.mem_reverse.mp h5
      exact List.mem_reverse.mp (mem_takeWhile_mem notSlash h6)
  · cases hc

/-- The two-digit counter field consists of decimal digits for counters
below 100. -/
theorem two2_digits : ∀ n, n < 100 → ∀ c ∈ two2 n, '0' ≤ c ∧ c ≤ '9' := by
  decide

/-- Generated image names contain neither `!` nor `)`. -/
theorem cleanName_chars (slug p : List Char) (hs : slugOk slug = true)
    (hp : pathOk p = true) (n : Nat) (hn : n < 100) :
    ∀ c ∈ cleanName slug n (pySuffix p), c ≠ '!' ∧ c ≠ ')' := by
  intro c hc
  unfold cleanName at hc
  rcases List.mem_append.mp hc with hsl | hrest
  · have := List.all_eq_true.mp hs c hsl
    simp only [Bool.and_eq_true, decide_eq_true_eq] at this
    exact ⟨this.2, (pathChar_facts this.1).1⟩
  · rcases List.mem_cons.mp hrest with h1 | h2
    · subst h1
      exact ⟨by decide, by decide⟩
    · rcases List.mem_append.mp h2 with hdig | hext
      · obtain ⟨hlo, _⟩ := two2_digits n hn c hdig
        constructor
        · intro e; subst e; exact absurd hlo (by decide)
        · intro e; subst e; exact absurd hlo (by decide)
      · rcases pySuffix_mem p c hext with h3 | h4
        · subst h3
          exact ⟨by decide, by decide⟩
        · have := (pathOk_chars hp).2 c h4
          exact ⟨this.2, (pathChar_facts this.1).1⟩

/-- Substituting a markup that occurs twice (between `!`-free segments)
rewrites both occurrences. -/
theorem replace_hit_two (B0 B1 B2 alt p nn : List Char)
    (hB0 : ∀ c ∈ B0, c ≠ '!') (hB1 : ∀ c ∈ B1, c ≠ '!')
    (hB2 : ∀ c ∈ B2, c ≠ '!') :
    replaceAll (B0 ++ (mkRef alt p ++ (B1 ++ (mkRef alt p ++ B2))))
      (mkRef alt p) (mkRef alt nn) =
      B0 ++ (mkRef alt nn ++ (B1 ++ (mkRef alt nn ++ B2))) := by
  have hold : ∃ o, mkRef alt p = '!' :: o :=
    ⟨'[' :: (alt ++ ']' :: '(' :: (p ++ [')'])), rfl⟩
  have holdne : mkRef alt p ≠ [] := by simp [mkRef]
  rw [replaceAll_nobang B0 _ _ _ hB0 hold, replaceAll_hit _ _ _ holdne,
    replaceAll_nobang B1 _ _ _ hB1 hold, replaceAll_hit _ _ _ holdne,
    replaceAll_nobang_only B2 _ _ hB2 hold]

/-- Substituting a markup that no longer occurs (both occurrences already
carry a different path) leaves the body unchanged. -/
theorem replace_skip_two (B0 B1 B2 alt p nn nn2 : List Char)
    (hB0 : ∀ c ∈ B0, c ≠ '!') (hB1 : ∀ c ∈ B1, c ≠ '!')
    (hB2 : ∀ c ∈ B2, c ≠ '!')
    (haltB : ∀ c ∈ alt, c ≠ '!') (hnnB : ∀ c ∈ nn, c ≠ '!')
    (hpre : ∀ X, (mkRef alt p).isPrefixOf (mkRef alt nn ++ X) = false) :
    replaceAll (B0 ++ (mkRef alt nn ++ (B1 ++ (mkRef alt nn ++ B2))))
      (mkRef alt p) (mkRef alt nn2) =
      B0 ++ (mkRef alt nn ++ (B1 ++ (mkRef alt nn ++ B2))) := by
  have hold : ∃ o, mkRef alt p = '!' :: o :=
    ⟨'[' :: (alt ++ ']' :: '(' :: (p ++ [')'])), rfl⟩
  have htail : ∀ d ∈ '[' :: (alt ++ ']' :: '(' :: (nn ++ [')'])),
      d ≠ '!' := by
    intro d hd
    rcases List.mem_cons.mp hd with h1 | h2
    · subst h1; decide
    · rcases List.mem_append.mp h2 with h3 | h4
      · exact haltB d h3
      · rcases List.mem_cons.mp h4 with h5 | h6
        · subst h5; decide
        · rcases List.mem_cons.mp h6 with h7 | h8
          · subst h7; decide
          · rcases List.mem_append.mp h8 with h9 | h10
            · exact hnnB d h9
            · rcases List.mem_cons.mp h10 with h11 | h12
              · subst h11; decide
              · cases h12
  have hshape : mkRef alt nn =
      '!' :: ('[' :: (alt ++ ']' :: '(' :: (nn ++ [')']))) := by
    simp [mkRef]
  have hpre' : ∀ X, (mkRef alt p).isPrefixOf
      ('!' :: (('[' :: (alt ++ ']' :: '(' :: (nn ++ [')']))) ++ X)) =
      false := by
    intro X
    have h := hpre X
    rw [hshape] at h
    simpa using h
  rw [replaceAll_nobang B0 _ _ _ hB0 hold, hshape]
  rw [replaceAll_block '!' _ _ _ _ htail hold (hpre' _)]
  rw [replaceAll_nobang B1 _ _ _ hB1 hold]
  rw [replaceAll_block '!' _ _ _ _ htail hold (hpre' _)]
  rw [replaceAll_nobang_only B2 _ _ hB2 hold]

/-- C9: a body with two identical image references (same alt text and
path, resolving to an existing file) has each occurrence processed
independently — each consumes a counter value and produces its own
numbered destination file — but textual substitution replaces both
markup occurrences together, so after rewriting both carry the name
assigned to the first occurrence. -/
theorem duplicate_refs_spec (dec : List Nat → Option PILImage) (maxW : Nat)
    (dd pd : Dir) (ip : Bool) (slug B0 B1 B2 alt p : List Char) (f : FData)
    (bundle : Dir)
    (hB0 : segOk B0 = true) (hB1 : segOk B1 = true) (hB2 : segOk B2 = true)
    (halt : altOk alt = true) (hp : pathOk p = true)
    (hskip : skipRef p = false) (hfind : alookup dd p = some f)
    (hslug : slugOk slug = true)
    (hne1 : p ≠ cleanName slug 1 (pySuffix p)) :
    process_images dec maxW dd pd ip slug
      (B0 ++ (mkRef alt p ++ (B1 ++ (mkRef alt p ++ B2)))) bundle =
      (B0 ++ (mkRef alt (cleanName slug 1 (pySuffix p)) ++
        (B1 ++ (mkRef alt (cleanName slug 1 (pySuffix p)) ++ B2))),
       aput (aput bundle (cleanName slug 1 (pySuffix p))
         (optimize_file dec maxW f)) (cleanName slug 2 (pySuffix p))
         (optimize_file dec maxW f),
       [⟨p, cleanName slug 1 (pySuffix p), alt⟩,
        ⟨p, cleanName slug 2 (pySuffix p), alt⟩]) := by
  obtain ⟨hpne, hpchars⟩ := pathOk_chars hp
  have hppc : ∀ c ∈ p, pathChar c = true := fun c hc => (hpchars c hc).1
  have hpnp : ∀ c ∈ p, c ≠ ')' :=
    fun c hc => (pathChar_facts (hppc c hc)).1
  have hpns : ∀ c ∈ p, pySpace c = false :=
    fun c hc => (pathChar_facts (hppc c hc)).2
  have haltR : ∀ c ∈ alt, notRBracket c = true :=
    fun c hc => (altOk_chars halt c hc).1
  have haltB : ∀ c ∈ alt, c ≠ '!' :=
    fun c hc => (altOk_chars halt c hc).2
  have hstrip : pyStrip p = p := pyStrip_eq_self_of_nospace hpns
  have hB0c := segOk_chars hB0
  have hB1c := segOk_chars hB1
  have hB2c := segOk_chars hB2
  have hnn1 := cleanName_chars slug p hslug hp 1 (by omega)
  have hnn1p : ∀ c ∈ cleanName slug 1 (pySuffix p), c ≠ ')' :=
    fun c hc => (hnn1 c hc).2
  have hnn1b : ∀ c ∈ cleanName slug 1 (pySuffix p), c ≠ '!' :=
    fun c hc => (hnn1 c hc).1
  have hrefs : findRefs (B0 ++ (mkRef alt p ++ (B1 ++ (mkRef alt p ++ B2)))) =
      [(alt, p), (alt, p)] := by
    rw [findRefs_append_nobang B0 _ hB0c,
      findRefs_cons_mkRef alt p _ haltR hpne hppc,
      findRefs_append_nobang B1 _ hB1c,
      findRefs_cons_mkRef alt p _ haltR hpne hppc,
      findRefs_nobang B2 hB2c]
  have hfi : find_image dd pd p ip = some f := by
    unfold find_image
    rw [hstrip, hfind]
  have hplan : planRefs dec maxW dd pd ip slug [(alt, p), (alt, p)] 1 =
      [(⟨p, cleanName slug 1 (pySuffix p), alt⟩, f),
       (⟨p, cleanName slug 2 (pySuffix p), alt⟩, f)] := by
    simp only [planRefs, hskip, hfi, hstrip]
    norm_num
  rw [process_images_eq, hrefs, hplan]
  simp only [Prod.mk.injEq]
  refine ⟨?_, ?_, ?_⟩
  · show replaceAll
      (replaceAll (B0 ++ (mkRef alt p ++ (B1 ++ (mkRef alt p ++ B2))))
        (mkRef alt p) (mkRef alt (cleanName slug 1 (pySuffix p))))
      (mkRef alt p) (mkRef alt (cleanName slug 2 (pySuffix p))) = _
    rw [replace_hit_two B0 B1 B2 alt p _ hB0c hB1c hB2c,
      replace_skip_two B0 B1 B2 alt p _ _ hB0c hB1c hB2c haltB hnn1b
        (fun X => mkRef_prefix_false alt p _ X hpnp hnn1p hne1)]
  · rfl
  · rfl

/-- Witness for C9 on a concrete duplicated reference. -/
theorem duplicate_refs_spec_witness :
    segOk (s2l "start ") = true ∧ altOk (s2l "x") = true ∧
    pathOk (s2l "q.png") = true ∧ skipRef (s2l "q.png") = false ∧
    alookup dirQ (s2l "q.png") = some (FData.bytes [1, 2, 3]) ∧
    s2l "q.png" ≠ cleanName (s2l "today_hello") 1 (pySuffix (s2l "q.png")) ∧
    process_images decQ 1920 dirQ [] true (s2l "today_hello")
      (s2l "start " ++ (mkRef (s2l "x") (s2l "q.png") ++
        (s2l " mid " ++ (mkRef (s2l "x") (s2l "q.png") ++ s2l " end")))) [] =
      (s2l "start " ++ (mkRef (s2l "x") (s2l "today_hello-01.png") ++
        (s2l " mid " ++ (mkRef (s2l "x") (s2l "today_hello-01.png") ++
          s2l " end"))),
       aput (aput [] (s2l "today_hello-01.png")
         (optimize_file decQ 1920 (FData.bytes [1, 2, 3])))
         (s2l "today_hello-02.png")
         (optimize_file decQ 1920 (FData.bytes [1, 2, 3])),
       [⟨s2l "q.png", s2l "today_hello-01.png", s2l "x"⟩,
        ⟨s2l "q.png", s2l "today_hello-02.png", s2l "x"⟩]) := by
  refine ⟨by decide, by decide, by decide, by decide, by decide, by decide, ?_⟩
  have h := duplicate_refs_spec decQ 1920 dirQ [] true (s2l "today_hello")
    (s2l "start ") (s2l " mid ") (s2l " end") (s2l "x") (s2l "q.png")
    (FData.bytes [1, 2, 3]) [] (by decide) (by decide) (by decide)
    (by decide) (by decide) (by decide) (by decide) (by decide) (by decide)
  rw [h]
  have e1 : cleanName (s2l "today_hello") 1 (pySuffix (s2l "q.png")) =
      s2l "today_hello-01.png" := by decide
  have e2 : cleanName (s2l "today_hello") 2 (pySuffix (s2l "q.png")) =
      s2l "today_hello-02.png" := by decide
  rw [e1, e2]

/-- Looking up the name just written finds the new content. -/
theorem alookup_aput_self {β : Type} (d : List (List Char × β))
    (k : List Char) (v : β) : alookup (aput d k v) k = some v := by
  induction d with
  | nil => simp [aput, alookup]
  | cons e rest ih =>
    obtain ⟨k', v'⟩ := e
    by_cases h : k' = k <;> simp [aput, alookup, h, ih]

/-- Writing one name leaves every other name's content unchanged. -/
theorem alookup_aput_ne {β : Type} (d : List (List Char × β))
    (k k' : List Char) (v : β) (h : k' ≠ k) :
    alookup (aput d k v) k' = alookup d k' := by
  induction d with
  | nil => simp [aput, alookup, Ne.symm h]
  | cons e rest ih =>
    obtain ⟨k'', v''⟩ := e
    by_cases h2 : k'' = k
    · subst h2
      simp [aput, alookup, Ne.symm h]
    · simp [aput, alookup, h2, ih]

/-- Deleting one name leaves every other name's content unchanged. -/
theorem alookup_aremove_ne {β : Type} (d : List (List Char × β))
    (k k' : List Char) (h : k' ≠ k) :
    alookup (aremove d k) k' = alookup d k' := by
  induction d with
  | nil => simp [aremove, alookup]
  | cons e rest ih =>
    obtain ⟨k'', v''⟩ := e
    by_cases h2 : k'' = k
    · subst h2
      simp [aremove, alookup, Ne.symm h]
    · simp [aremove, alookup, h2, ih]

/-- Rewriting a file with the content it already holds changes nothing. -/
theorem aput_self_id {β : Type} (d : List (List Char × β)) (k : List Char)
    (v : β) (h : alookup d k = some v) : aput d k v = d := by
  induction d with
  | nil => simp [alookup] at h
  | cons e rest ih =>
    obtain ⟨k', v'⟩ := e
    by_cases h2 : k' = k
    · subst h2
      simp [alookup] at h
      simp [aput, h]
    · simp only [alookup, if_neg h2] at h
      simp [aput, h2, ih h]

/-- The image-rename fold of the re-publish branch never touches a name
that is neither a source basename nor a destination name. -/
theorem foldl_renameStep_lookup (renames : List Rename) :
    ∀ (d : Dir) (x : List Char),
      (∀ r ∈ renames, baseName r.old_path ≠ x ∧ r.new_name ≠ x) →
      alookup (renames.foldl renameStep d) x = alookup d x := by
  induction renames with
  | nil => intro d x _; rfl
  | cons r rest ih =>
    intro d x h
    have hr := h r (List.mem_cons_self r rest)
    have hrest : ∀ r' ∈ rest,
        baseName r'.old_path ≠ x ∧ r'.new_name ≠ x :=
      fun r' hm => h r' (List.mem_cons_of_mem r hm)
    rw [List.foldl_cons, ih _ x hrest]
    simp only [renameStep]
    cases hl : alookup d (baseName r.old_path) with
    | none => rfl
    | some f =>
      dsimp only
      by_cases he : baseName r.old_path = r.new_name
      · rw [if_pos he]
      · rw [if_neg he, alookup_aput_ne _ _ _ _ (Ne.symm hr.2),
          alookup_aremove_ne _ _ _ (Ne.symm hr.1)]

/-- The re-publish branch leaves the draft markdown at its own name,
holding the substituted content, whenever no rename record collides with
that name. -/
theorem handle_repub_at_draft (archDir : Dir) (dn content : List Char)
    (renames : List Rename)
    (hok : ∀ r ∈ renames, baseName r.old_path ≠ dn ∧ r.new_name ≠ dn) :
    alookup (handle_repub archDir dn content renames) dn =
      some (FData.text (update_image_refs content renames)) := by
  simp only [handle_repub]
  rw [foldl_renameStep_lookup renames _ dn hok, alookup_aput_self]

/-- Sorting a mapping whose keys are already in increasing order is the
identity. -/
theorem sortFM_id : ∀ {fm : FMap}, sortedKeys fm = true → sortFM fm = fm := by
  intro fm
  induction fm with
  | nil => intro _; rfl
  | cons e rest ih =>
    intro h
    obtain ⟨k1, v1⟩ := e
    cases rest with
    | nil => rfl
    | cons f rest' =>
      obtain ⟨k2, v2⟩ := f
      simp only [sortedKeys, Bool.and_eq_true] at h
      have ihr := ih h.2
      show insFM (k1, v1) (sortFM ((k2, v2) :: rest')) = _
      rw [ihr]
      simp [insFM, h.1]

/-- A decimal digit is a regex path character. -/
theorem digit_pathChar {c : Char} (hlo : '0' ≤ c) : pathChar c = true := by
  have hne : ∀ d : Char, ¬ ('0' ≤ d) → c ≠ d := by
    intro d hd e
    exact hd (e ▸ hlo)
  have h1 : c ≠ ')' := hne _ (by decide)
  have h2 : c ≠ ' ' := hne _ (by decide)
  have h3 : c ≠ '\t' := hne _ (by decide)
  have h4 : c ≠ '\n' := hne _ (by decide)
  have h5 : c ≠ '\r' := hne _ (by decide)
  have h6 : c ≠ Char.ofNat 11 := hne _ (by decide)
  have h7 : c ≠ Char.ofNat 12 := hne _ (by decide)
  simp [pathChar, pySpace, h1, h2, h3, h4, h5, h6, h7]

/-- Generated image names are made of regex path characters. -/
theorem cleanName_pathChar (slug p : List Char) (hs : slugOk slug = true)
    (hp : pathOk p = true) (n : Nat) (hn : n < 100) :
    ∀ c ∈ cleanName slug n (pySuffix p), pathChar c = true := by
  intro c hc
  unfold cleanName at hc
  rcases List.mem_append.mp hc with hsl | hrest
  · have := List.all_eq_true.mp hs c hsl
    simp only [Bool.and_eq_true, decide_eq_true_eq] at this
    exact this.1
  · rcases List.mem_cons.mp hrest with h1 | h2
    · subst h1
      decide
    · rcases List.mem_append.mp h2 with hdig | hext
      · exact digit_pathChar (two2_digits n hn c hdig).1
      · rcases pySuffix_mem p c hext with h3 | h4
        · subst h3
          decide
        · exact ((pathOk_chars hp).2 c h4).1

/-- Generated image names are admissible reference paths. -/
theorem cleanName_pathOk (slug p : List Char) (hs : slugOk slug = true)
    (hp : pathOk p = true) (n : Nat) (hn : n < 100) :
    pathOk (cleanName slug n (pySuffix p)) = true := by
  simp only [pathOk, Bool.and_eq_true, List.all_eq_true]
  constructor
  · cases slug <;> simp [cleanName]
  · intro c hc
    simp [cleanName_pathChar slug p hs hp n hn c hc,
      (cleanName_chars slug p hs hp n hn c hc).1]

/-- A composed document is its pre-body part followed by the body. -/
theorem create_markdown_split (fm : FMap) (body : List Char) :
    create_markdown fm body = cmPre fm ++ body := by
  simp [create_markdown, cmPre, List.append_assoc]

/-- When the serialized mapping is free of `!`, so is the whole pre-body
part of the composed document. -/
theorem cmPre_nobang (fm : FMap)
    (hser : (serialize fm).all (fun c => c ≠ '!') = true) :
    ∀ c ∈ cmPre fm, c ≠ '!' := by
  intro c hc e
  subst e
  have h1 : ¬ ('!' ∈ s2l "---") := by decide
  have h2 : ('!' : Char) ≠ '\n' := by decide
  have h3 : ¬ ('!' ∈ serialize fm) := by
    intro hm
    have := List.all_eq_true.mp hser _ hm
    simp at this
  simp [cmPre, List.mem_append, List.mem_cons, h1, h2, h3] at hc

/-- Substituting a markup that occurs once between `!`-free segments
rewrites exactly that occurrence. -/
theorem replace_hit_one (B0 B1 alt p nn : List Char)
    (hB0 : ∀ c ∈ B0, c ≠ '!') (hB1 : ∀ c ∈ B1, c ≠ '!') :
    replaceAll (B0 ++ (mkRef alt p ++ B1)) (mkRef alt p) (mkRef alt nn) =
      B0 ++ (mkRef alt nn ++ B1) := by
  have hold : ∃ o, mkRef alt p = '!' :: o :=
    ⟨'[' :: (alt ++ ']' :: '(' :: (p ++ [')'])), rfl⟩
  rw [replaceAll_nobang B0 _ _ _ hB0 hold,
    replaceAll_hit _ _ _ (by simp [mkRef]),
    replaceAll_nobang_only B1 _ _ hB1 hold]

/-- The head of a body is untouched by swapping the path inside a markup
that sits behind a (possibly empty) `!`-free prefix. -/
theorem bodySafe_swap (B0 X Y : List Char)
    (h : bodySafe (B0 ++ '!' :: X) = true) :
    bodySafe (B0 ++ '!' :: Y) = true := by
  cases B0 with
  | nil => rfl
  | cons c t =>
    simp only [List.cons_append, bodySafe] at h ⊢
    exact h

/-- One non-interactive re-publish run on an archive whose draft body
holds a single local image reference: the output state rewrites the
reference to its generated name in both the Hugo bundle and the archived
markdown, stores the optimized image in the bundle, and applies one
image-rename step inside the archive. -/
theorem republish_single (dec : List Nat → Option PILImage) (maxW : Nat)
    (now adn dn : List Char) (arch pd : Dir)
    (blog : List (List Char × Dir)) (fm : FMap)
    (B0 B1 alt q : List Char) (f : FData)
    (titleS dateS slug nn content : List Char)
    (hslugdef : slug = generate_slug titleS dateS)
    (hnn : nn = cleanName slug 1 (pySuffix q))
    (hcontent : content = create_markdown fm (B0 ++ (mkRef alt q ++ B1)))
    (hwf : wfFM fm = true)
    (hval : (validate (some fm)).1 = true)
    (hdateP : (dlookup fm (s2l "date")).isSome = true)
    (htypeP : (dlookup fm (s2l "type")).isSome = true)
    (hdraftP : (dlookup fm (s2l "draft")).isSome = true)
    (htitle : dlookup fm (s2l "title") = some (YVal.ys titleS))
    (hdate : dlookup fm (s2l "date") = some (YVal.ys dateS))
    (hser : (serialize fm).all (fun c => c ≠ '!') = true)
    (hB0 : segOk B0 = true) (hB1 : segOk B1 = true)
    (halt : altOk alt = true) (hq : pathOk q = true)
    (hskipq : skipRef q = false)
    (hsafe : bodySafe (B0 ++ (mkRef alt q ++ B1)) = true)
    (hdnmd : pySuffix dn = s2l ".md")
    (harch_dn : alookup arch dn = some (FData.text content))
    (harch_q : alookup arch q = some f) :
    republish dec maxW now ⟨adn, dn, arch, pd, blog⟩ =
      some ⟨adn, dn,
        renameStep
          (aput arch dn
            (FData.text (create_markdown fm (B0 ++ (mkRef alt nn ++ B1)))))
          ⟨q, nn, alt⟩,
        pd,
        aput blog slug
          (aput
            (aput ((alookup blog slug).getD []) nn
              (optimize_file dec maxW f))
            (s2l "index.md")
            (FData.text (create_markdown fm (B0 ++ (mkRef alt nn ++ B1)))))⟩ := by
  subst hslugdef hnn hcontent
  obtain ⟨hqne, hqchars⟩ := pathOk_chars hq
  have hqpc : ∀ c ∈ q, pathChar c = true := fun c hc => (hqchars c hc).1
  have hqns : ∀ c ∈ q, pySpace c = false :=
    fun c hc => (pathChar_facts (hqpc c hc)).2
  have haltR : ∀ c ∈ alt, notRBracket c = true :=
    fun c hc => (altOk_chars halt c hc).1
  have hB0c := segOk_chars hB0
  have hB1c := segOk_chars hB1
  have hstrip : pyStrip q = q := pyStrip_eq_self_of_nospace hqns
  have hbody_head : B0 ++ (mkRef alt q ++ B1) = [] ∨
      ∃ c t, B0 ++ (mkRef alt q ++ B1) = c :: t ∧ pySpace c = false := by
    rcases bodySafe_parts _ hsafe with h | ⟨c, t, he, h1, _⟩
    · exact Or.inl h
    · exact Or.inr ⟨c, t, he, h1⟩
  have hparse := parse_create_markdown fm (B0 ++ (mkRef alt q ++ B1)) hwf
    hbody_head
  rw [(h1_noop _ hsafe).2] at hparse
  have hrefs : findRefs (B0 ++ (mkRef alt q ++ B1)) = [(alt, q)] := by
    rw [findRefs_append_nobang B0 _ hB0c,
      findRefs_cons_mkRef alt q _ haltR hqne hqpc, findRefs_nobang B1 hB1c]
  have hfi : find_image arch pd q true = some f := by
    unfold find_image
    rw [hstrip, harch_q]
  have hplan : planRefs dec maxW arch pd true
      (generate_slug titleS dateS) [(alt, q)] 1 =
      [(⟨q, cleanName (generate_slug titleS dateS) 1 (pySuffix q), alt⟩,
        f)] := by
    simp only [planRefs, hskipq, hfi, hstrip]
    norm_num
  have hproc : process_images dec maxW arch pd true
      (generate_slug titleS dateS) (B0 ++ (mkRef alt q ++ B1))
      ((alookup blog (generate_slug titleS dateS)).getD []) =
      (B0 ++ (mkRef alt
          (cleanName (generate_slug titleS dateS) 1 (pySuffix q)) ++ B1),
       aput ((alookup blog (generate_slug titleS dateS)).getD [])
         (cleanName (generate_slug titleS dateS) 1 (pySuffix q))
         (optimize_file dec maxW f),
       [⟨q, cleanName (generate_slug titleS dateS) 1 (pySuffix q), alt⟩]) := by
    rw [process_images_eq, hrefs, hplan]
    simp only [Prod.mk.injEq]
    refine ⟨?_, rfl, rfl⟩
    show replaceAll (B0 ++ (mkRef alt q ++ B1)) (mkRef alt q)
      (mkRef alt (cleanName (generate_slug titleS dateS) 1 (pySuffix q))) = _
    exact replace_hit_one B0 B1 alt q _ hB0c hB1c
  have hensure : ensure_complete now fm = fm := by
    rw [ensure_complete_eq]
    simp [hdateP, htypeP, hdraftP]
  have hsort : sortFM fm = fm := sortFM_id (wfFM_parts hwf).2.1
  have hsrc : update_image_refs
      (create_markdown fm (B0 ++ (mkRef alt q ++ B1)))
      [⟨q, cleanName (generate_slug titleS dateS) 1 (pySuffix q), alt⟩] =
      create_markdown fm (B0 ++ (mkRef alt
        (cleanName (generate_slug titleS dateS) 1 (pySuffix q)) ++ B1)) := by
    show replaceAll (create_markdown fm (B0 ++ (mkRef alt q ++ B1)))
      (mkRef alt q)
      (mkRef alt (cleanName (generate_slug titleS dateS) 1 (pySuffix q))) = _
    rw [create_markdown_split, create_markdown_split,
      replaceAll_nobang (cmPre fm) _ (mkRef alt q) _ (cmPre_nobang fm hser)
        ⟨'[' :: (alt ++ ']' :: '(' :: (q ++ [')'])), rfl⟩,
      replace_hit_one B0 B1 alt q _ hB0c hB1c]
  simp only [republish]
  rw [harch_dn]
  dsimp only
  rw [if_pos hdnmd, hparse]
  dsimp only
  rw [if_pos hval, hensure, htitle, hdate]
  dsimp only
  rw [hproc]
  dsimp only
  simp only [handle_repub, List.foldl, hsrc, hsort]

/-- C4 counterexample: re-publishing a draft archived under
`20250101_old_name` whose current title and date yield the slug
`date202601_hello` succeeds, overwrites the archived markdown in place at
its own name — and renames nothing: the bundle directory keeps its stale
name and no path is moved to the newly computed one. -/
theorem archive_rename_cex :
    republish decQ 1920 (s2l "now") stC4 = some stC4r ∧
    generate_slug (s2l "Hello") (s2l "date20260101x") ≠
      stC4.archDirName ∧
    stC4r.archDirName = stC4.archDirName ∧
    alookup stC4r.arch (s2l "index.md") =
      some (FData.text (create_markdown fmW
        (s2l "![x](date202601_hello-01.png) end"))) := by
  refine ⟨by decide, by decide, by decide, by decide⟩

/-- C4 (amended): whenever a non-interactive re-publish run succeeds, the
source-file step overwrites the archived markdown in place — the draft's
own name receives the original content with the image references
substituted — and only image files are ever renamed: the bundle
directory's name and the draft markdown's name are never changed, whatever
slug was computed. -/
theorem archive_inplace_spec (dec : List Nat → Option PILImage)
    (maxW : Nat) (now : List Char) (st st' : PState)
    (h : republish dec maxW now st = some st') :
    st'.archDirName = st.archDirName ∧ st'.draftName = st.draftName ∧
    st'.parentDir = st.parentDir ∧
    ∃ content renames,
      alookup st.arch st.draftName = some (FData.text content) ∧
      st'.arch = handle_repub st.arch st.draftName content renames ∧
      ((∀ r ∈ renames, baseName r.old_path ≠ st.draftName ∧
          r.new_name ≠ st.draftName) →
        alookup st'.arch st.draftName =
          some (FData.text (update_image_refs content renames))) := by
  unfold republish at h
  cases hc : alookup st.arch st.draftName with
  | none =>
    rw [hc] at h
    exact Option.noConfusion h
  | some fd =>
    rw [hc] at h
    cases fd with
    | bytes b => exact Option.noConfusion h
    | enc w hgt s => exact Option.noConfusion h
    | text content =>
      dsimp only at h
      by_cases hmd : pySuffix st.draftName = s2l ".md"
      · rw [if_pos hmd] at h
        cases hp : parse content with
        | none =>
          rw [hp] at h
          exact Option.noConfusion h
        | some trip =>
          rw [hp] at h
          obtain ⟨fmOpt, body, tl⟩ := trip
          dsimp only at h
          cases fmOpt with
          | none => exact Option.noConfusion h
          | some fm0 =>
            dsimp only at h
            by_cases hv : (validate (some fm0)).1 = true
            · rw [if_pos hv] at h
              cases ht : dlookup (ensure_complete now fm0) (s2l "title") with
              | none =>
                rw [ht] at h
                dsimp only at h
                exact Option.noConfusion h
              | some y1 =>
                rw [ht] at h
                cases y1 with
                | yl vs =>
                  dsimp only at h
                  exact Option.noConfusion h
                | yb b =>
                  dsimp only at h
                  exact Option.noConfusion h
                | ys title =>
                  cases hd : dlookup (ensure_complete now fm0)
                      (s2l "date") with
                  | none =>
                    rw [hd] at h
                    dsimp only at h
                    exact Option.noConfusion h
                  | some y2 =>
                    rw [hd] at h
                    cases y2 with
                    | yl vs =>
                      dsimp only at h
                      exact Option.noConfusion h
                    | yb b =>
                      dsimp only at h
                      exact Option.noConfusion h
                    | ys dateStr =>
                      dsimp only at h
                      have hst := (Option.some.inj h)
                      subst hst
                      refine ⟨rfl, rfl, rfl, content, _, rfl, rfl, ?_⟩
                      intro hok
                      exact handle_repub_at_draft st.arch st.draftName
                        content _ hok
            · rw [if_neg hv] at h
              exact Option.noConfusion h
      · rw [if_neg hmd] at h
        exact Option.noConfusion h

/-- Witness for C4 on the concrete archived draft: the run succeeds and
the bundle directory's name survives unchanged. -/
theorem archive_inplace_spec_witness :
    republish decQ 1920 (s2l "now") stC4 = some stC4r ∧
    stC4r.archDirName = stC4.archDirName :=
  ⟨by decide,
   (archive_inplace_spec decQ 1920 (s2l "now") stC4 stC4r (by decide)).1⟩

/-- A rename record whose source basename equals its destination moves
nothing. -/
theorem renameStep_same (d : Dir) (x alt2 : List Char)
    (hb : baseName x = x) : renameStep d ⟨x, x, alt2⟩ = d := by
  simp only [renameStep, hb]
  cases h : alookup d x <;> simp

/-- Rewriting a file under an unrelated later write changes nothing. -/
theorem aput_idem_under {β : Type} (d : List (List Char × β))
    (k i : List Char) (v w : β) (h : k ≠ i) :
    aput (aput (aput d k v) i w) k v = aput (aput d k v) i w :=
  aput_self_id _ _ _
    (by rw [alookup_aput_ne _ _ _ _ h]; exact alookup_aput_self _ _ _)

/-- Repeating the most recent write changes nothing. -/
theorem aput_idem_top {β : Type} (d : List (List Char × β))
    (i : List Char) (w : β) : aput (aput d i w) i w = aput d i w :=
  aput_self_id _ _ _ (alookup_aput_self _ _ _)

/-- C3 (amended): the non-interactive re-publish run is idempotent on a
draft whose body holds one local image reference between `!`-free
segments, resolving to a file of the archive, under complete well-formed
front matter: running the pipeline a second time on the first run's
output reproduces that output exactly, so the published bundle (index
file content and image files) is byte-identical across the two runs. -/
theorem republish_idempotent (dec : List Nat → Option PILImage)
    (maxW : Nat) (now adn dn : List Char) (arch pd : Dir)
    (blog : List (List Char × Dir)) (fm : FMap)
    (B0 B1 alt p : List Char) (f : FData)
    (titleS dateS slug nn1 body0 content : List Char)
    (hslugdef : slug = generate_slug titleS dateS)
    (hnn1def : nn1 = cleanName slug 1 (pySuffix p))
    (hbody0 : body0 = B0 ++ (mkRef alt p ++ B1))
    (hcontent : content = create_markdown fm body0)
    (hwf : wfFM fm = true)
    (hval : (validate (some fm)).1 = true)
    (hdateP : (dlookup fm (s2l "date")).isSome = true)
    (htypeP : (dlookup fm (s2l "type")).isSome = true)
    (hdraftP : (dlookup fm (s2l "draft")).isSome = true)
    (htitle : dlookup fm (s2l "title") = some (YVal.ys titleS))
    (hdate : dlookup fm (s2l "date") = some (YVal.ys dateS))
    (hser : (serialize fm).all (fun c => c ≠ '!') = true)
    (hB0 : segOk B0 = true) (hB1 : segOk B1 = true)
    (halt : altOk alt = true) (hp : pathOk p = true)
    (hslugOk : slugOk slug = true)
    (hskip : skipRef p = false) (hskip2 : skipRef nn1 = false)
    (hsafe : bodySafe body0 = true)
    (hdnmd : pySuffix dn = s2l ".md")
    (harch_dn : alookup arch dn = some (FData.text content))
    (harch_p : alookup arch p = some f)
    (hbn : baseName p = p) (hbn2 : baseName nn1 = nn1)
    (hsuf : pySuffix nn1 = pySuffix p)
    (hne : p ≠ nn1) (hdn1 : dn ≠ p) (hdn2 : dn ≠ nn1)
    (hidx : s2l "index.md" ≠ nn1) :
    (republish dec maxW now ⟨adn, dn, arch, pd, blog⟩).bind
        (republish dec maxW now) =
      republish dec maxW now ⟨adn, dn, arch, pd, blog⟩ ∧
    (republish dec maxW now ⟨adn, dn, arch, pd, blog⟩).isSome = true := by
  subst hslugdef hnn1def hbody0 hcontent
  have run1 := republish_single dec maxW now adn dn arch pd blog fm B0 B1
    alt p f titleS dateS _ _ _ rfl rfl rfl hwf hval hdateP htypeP hdraftP
    htitle hdate hser hB0 hB1 halt hp hskip hsafe hdnmd harch_dn harch_p
  have harch2 : renameStep
      (aput arch dn (FData.text (create_markdown fm (B0 ++ (mkRef alt
        (cleanName (generate_slug titleS dateS) 1 (pySuffix p)) ++ B1)))))
      ⟨p, cleanName (generate_slug titleS dateS) 1 (pySuffix p), alt⟩ =
      aput (aremove
        (aput arch dn (FData.text (create_markdown fm (B0 ++ (mkRef alt
          (cleanName (generate_slug titleS dateS) 1 (pySuffix p))
            ++ B1))))) p)
        (cleanName (generate_slug titleS dateS) 1 (pySuffix p)) f := by
    simp only [renameStep, hbn]
    rw [alookup_aput_ne _ _ _ _ (Ne.symm hdn1), harch_p]
    dsimp only
    rw [if_neg hne]
  rw [harch2] at run1
  have harch_dn2 : alookup
      (aput (aremove
        (aput arch dn (FData.text (create_markdown fm (B0 ++ (mkRef alt
          (cleanName (generate_slug titleS dateS) 1 (pySuffix p))
            ++ B1))))) p)
        (cleanName (generate_slug titleS dateS) 1 (pySuffix p)) f) dn =
      some (FData.text (create_markdown fm (B0 ++ (mkRef alt
        (cleanName (generate_slug titleS dateS) 1 (pySuffix p))
          ++ B1)))) := by
    rw [alookup_aput_ne _ _ _ _ hdn2, alookup_aremove_ne _ _ _ hdn1]
    exact alookup_aput_self _ _ _
  have harch_q2 : alookup
      (aput (aremove
        (aput arch dn (FData.text (create_markdown fm (B0 ++ (mkRef alt
          (cleanName (generate_slug titleS dateS) 1 (pySuffix p))
            ++ B1))))) p)
        (cleanName (generate_slug titleS dateS) 1 (pySuffix p)) f)
      (cleanName (generate_slug titleS dateS) 1 (pySuffix p)) =
      some f := alookup_aput_self _ _ _
  have hq2 : pathOk
      (cleanName (generate_slug titleS dateS) 1 (pySuffix p)) = true :=
    cleanName_pathOk _ p hslugOk hp 1 (by omega)
  have hsafe2 : bodySafe (B0 ++ (mkRef alt
      (cleanName (generate_slug titleS dateS) 1 (pySuffix p)) ++ B1)) =
      true := by
    have hs := hsafe
    rw [mkRef_append] at hs
    rw [mkRef_append]
    exact bodySafe_swap B0 _ _ hs
  have hnnEq : cleanName (generate_slug titleS dateS) 1 (pySuffix p) =
      cleanName (generate_slug titleS dateS) 1
        (pySuffix (cleanName (generate_slug titleS dateS) 1
          (pySuffix p))) := by
    rw [hsuf]
  have run2 := republish_single dec maxW now adn dn
    (aput (aremove
      (aput arch dn (FData.text (create_markdown fm (B0 ++ (mkRef alt
        (cleanName (generate_slug titleS dateS) 1 (pySuffix p))
          ++ B1))))) p)
      (cleanName (generate_slug titleS dateS) 1 (pySuffix p)) f) pd
    (aput blog (generate_slug titleS dateS)
      (aput
        (aput ((alookup blog (generate_slug titleS dateS)).getD [])
          (cleanName (generate_slug titleS dateS) 1 (pySuffix p))
          (optimize_file dec maxW f))
        (s2l "index.md")
        (FData.text (create_markdown fm (B0 ++ (mkRef alt
          (cleanName (generate_slug titleS dateS) 1 (pySuffix p))
            ++ B1))))))
    fm B0 B1 alt
    (cleanName (generate_slug titleS dateS) 1 (pySuffix p)) f
    titleS dateS _ _ _ rfl hnnEq rfl hwf hval hdateP htypeP hdraftP
    htitle hdate hser hB0 hB1 halt hq2 hskip2 hsafe2 hdnmd harch_dn2
    harch_q2
  rw [aput_self_id _ _ _ harch_dn2,
    renameStep_same _ _ _ hbn2,
    alookup_aput_self, Option.getD_some,
    aput_idem_under _ _ _ _ _ (Ne.symm hidx),
    aput_idem_top, aput_idem_top] at run2
  constructor
  · rw [run1]
    exact run2
  · rw [run1]
    rfl

/-- C3 counterexample: on a draft inside the archive whose body holds the
same image reference twice, two runs of the pipeline with unchanged
inputs produce different published bundles — the first run's index file
references the `-01` image name in both places, the second run's
references `-02` — even though both runs succeed. -/
theorem republish_idempotent_cex :
    ((republish decQ 1920 (s2l "now") stC3).bind
        (republish decQ 1920 (s2l "now"))).map
        (fun st => alookup st.blog (s2l "date202601_hello")) ≠
      (republish decQ 1920 (s2l "now") stC3).map
        (fun st => alookup st.blog (s2l "date202601_hello")) ∧
    (republish decQ 1920 (s2l "now") stC3).isSome = true := by
  refine ⟨by decide, by decide⟩

/-- Witness for C3 on a concrete single-reference archived draft. -/
theorem republish_idempotent_witness :
    (republish decQ 1920 (s2l "now")
        ⟨s2l "old", s2l "index.md", archW, [], []⟩).bind
        (republish decQ 1920 (s2l "now")) =
      republish decQ 1920 (s2l "now")
        ⟨s2l "old", s2l "index.md", archW, [], []⟩ ∧
    (republish decQ 1920 (s2l "now")
        ⟨s2l "old", s2l "index.md", archW, [], []⟩).isSome = true :=
  republish_idempotent decQ 1920 (s2l "now") (s2l "old") (s2l "index.md")
    archW [] [] fmW (s2l "start ") (s2l " end") (s2l "x") (s2l "q.png")
    (FData.bytes [1, 2, 3]) (s2l "Hello") (s2l "date20260101x")
    (s2l "date202601_hello") (s2l "date202601_hello-01.png")
    (s2l "start " ++ (mkRef (s2l "x") (s2l "q.png") ++ s2l " end"))
    (create_markdown fmW
      (s2l "start " ++ (mkRef (s2l "x") (s2l "q.png") ++ s2l " end")))
    (by decide) (by decide) rfl rfl (by decide) (by decide) (by decide)
    (by decide) (by decide) (by decide) (by decide) (by decide)
    (by decide) (by decide) (by decide) (by decide) (by decide)
    (by decide) (by decide) (by decide) (by decide) (by decide)
    (by decide) (by decide) (by decide) (by decide) (by decide)
    (by decide) (by decide) (by decide)

end Publish
